import Mathlib

/-!
# Circular doubly linked list

A shallow embedding of `include/cyclicList.h` and `include/cyclicListclass.h`.

* A `std::shared_ptr<Node>` / `std::weak_ptr<Node>` is an address into an arena of
  nodes (`Ptr`, with `none` the null pointer).  `make_shared` appends a node to the
  arena; an unlinked node simply stays in the arena, so `prev.lock()` is a read of
  the stored address.
* `std::out_of_range` is the fault `out_of_range`, which carries the container as it
  is when the exception leaves the call; dereferencing a null pointer is the fault
  `undefined`.
* `size_t` is `Nat`: the counter only changes by one per node allocated or unlinked.
* Loops whose termination depends on the shape of the ring take a fuel argument and
  answer `none` when it runs out.
-/

namespace Cyclic

/-- An address of a node, or the null pointer. -/
abbrev Ptr := Option Nat

/-- The `struct Node`: payload, owning forward link and non-owning backward link. -/
structure Node (α : Type) where
  data : α
  next : Ptr
  prev : Ptr
deriving DecidableEq

/-- The container: the node arena, the `head` pointer and the `size_` counter. -/
structure CyclicList (α : Type) where
  mem : List (Node α)
  head : Ptr
  size_ : Nat
deriving DecidableEq

/-- The ways a call can fail. -/
inductive Fault (α : Type) where
  | out_of_range (st : CyclicList α)
  | undefined
deriving DecidableEq

/-- The cursor classes `iterator` and `const_iterator` (same fields). -/
structure iterator where
  current : Ptr
  head : Ptr
  is_end : Bool
deriving DecidableEq

/-- The read-only cursor: its member functions are the same text as those of `iterator`. -/
abbrev const_iterator := iterator

section memory

variable {α : Type}

/-- The access `p->...`: the node behind `p`. -/
def load (m : List (Node α)) (p : Ptr) : Except (Fault α) (Node α) :=
  match p with
  | none => .error .undefined
  | some a =>
    match m[a]? with
    | none => .error .undefined
    | some nd => .ok nd

/-- An assignment to a field of `*p`. -/
def store (m : List (Node α)) (p : Ptr) (f : Node α → Node α) :
    Except (Fault α) (List (Node α)) :=
  match p with
  | none => .error .undefined
  | some a =>
    match m[a]? with
    | none => .error .undefined
    | some nd => .ok (m.set a (f nd))

/-- The assignment `p->next = x`. -/
def setNext (m : List (Node α)) (p x : Ptr) : Except (Fault α) (List (Node α)) :=
  store m p (fun nd => Node.mk nd.data x nd.prev)

/-- The assignment `p->prev = x`. -/
def setPrev (m : List (Node α)) (p x : Ptr) : Except (Fault α) (List (Node α)) :=
  store m p (fun nd => Node.mk nd.data nd.next x)

/-- The call `std::make_shared<Node>(value)`: constructor `Node(value)` leaves both links null. -/
def make_shared (m : List (Node α)) (value : α) : Ptr × List (Node α) :=
  (some m.length, m ++ [Node.mk value none none])

end memory

namespace iterator

variable {α : Type}

/-- The member `operator*`. -/
def op_deref (m : List (Node α)) (it : iterator) : Except (Fault α) α :=
  match load m it.current with
  | .error e => .error e
  | .ok nd => .ok nd.data

/-- The member `operator++` (prefix). -/
def op_inc (m : List (Node α)) (it : iterator) : Except (Fault α) iterator :=
  match it.current with
  | none => .ok it
  | some a =>
    match load m (some a) with
    | .error e => .error e
    | .ok nd =>
      .ok (iterator.mk nd.next it.head (if nd.next = it.head then true else it.is_end))

/-- The member `operator--` (prefix). -/
def op_dec (m : List (Node α)) (it : iterator) : Except (Fault α) iterator :=
  match it.current with
  | none => .ok it
  | some a =>
    if it.is_end then .ok (iterator.mk it.current it.head false)
    else
      match load m (some a) with
      | .error e => .error e
      | .ok nd => .ok (iterator.mk nd.prev it.head it.is_end)

/-- The member `operator==`. -/
def op_eq (it other : iterator) : Bool :=
  decide (it.current = other.current) && decide (it.is_end = other.is_end)

/-- The member `operator!=`. -/
def op_ne (it other : iterator) : Bool :=
  !(it.op_eq other)

/-- Repeated `++it`, `k` times. -/
def advance (m : List (Node α)) : Nat → iterator → Except (Fault α) iterator
  | 0, it => .ok it
  | k + 1, it =>
    match op_inc m it with
    | .error e => .error e
    | .ok it1 => advance m k it1

end iterator

namespace CyclicList

variable {α : Type}

/-- The constructor `CyclicList()`. -/
def ctor : CyclicList α := CyclicList.mk [] none 0

/-- The member `begin()`. -/
def begin (l : CyclicList α) : iterator := iterator.mk l.head l.head false

/-- The member `end()`. -/
def end_ (l : CyclicList α) : iterator := iterator.mk l.head l.head true

/-- The member `begin() const`. -/
def cbegin (l : CyclicList α) : const_iterator := iterator.mk l.head l.head false

/-- The member `end() const`. -/
def cend (l : CyclicList α) : const_iterator := iterator.mk l.head l.head true

/-- The member `empty()`. -/
def empty (l : CyclicList α) : Bool := decide (l.size_ = 0)

/-- The member `size()`. -/
def size (l : CyclicList α) : Nat := l.size_

/-- The member `front()`. -/
def front (l : CyclicList α) : Except (Fault α) α :=
  if l.empty then .error (.out_of_range l)
  else
    match load l.mem l.head with
    | .error e => .error e
    | .ok h => .ok h.data

/-- The member `back()`. -/
def back (l : CyclicList α) : Except (Fault α) α :=
  if l.empty then .error (.out_of_range l)
  else
    match load l.mem l.head with
    | .error e => .error e
    | .ok h =>
      match load l.mem h.prev with
      | .error e => .error e
      | .ok p => .ok p.data

/-- The member `push_front(value)`. -/
def push_front (l : CyclicList α) (value : α) : Except (Fault α) (CyclicList α) :=
  let new_node := (make_shared l.mem value).1
  let m0 := (make_shared l.mem value).2
  if l.empty then
    -- head = new_node; head->next = head; head->prev = head;
    (setNext m0 new_node new_node).bind fun m1 =>
    (setPrev m1 new_node new_node).bind fun m2 =>
    .ok (CyclicList.mk m2 new_node (l.size_ + 1))
  else
    -- new_node->next = head;
    (setNext m0 new_node l.head).bind fun m1 =>
    -- new_node->prev = head->prev;
    (load m1 l.head).bind fun h1 =>
    (setPrev m1 new_node h1.prev).bind fun m2 =>
    -- head->prev.lock()->next = new_node;
    (load m2 l.head).bind fun h2 =>
    (setNext m2 h2.prev new_node).bind fun m3 =>
    -- head->prev = new_node;
    (setPrev m3 l.head new_node).bind fun m4 =>
    -- head = new_node;
    .ok (CyclicList.mk m4 new_node (l.size_ + 1))

/-- The member `push_back(value)`. -/
def push_back (l : CyclicList α) (value : α) : Except (Fault α) (CyclicList α) :=
  let new_node := (make_shared l.mem value).1
  let m0 := (make_shared l.mem value).2
  if l.empty then
    (setNext m0 new_node new_node).bind fun m1 =>
    (setPrev m1 new_node new_node).bind fun m2 =>
    .ok (CyclicList.mk m2 new_node (l.size_ + 1))
  else
    (setNext m0 new_node l.head).bind fun m1 =>
    (load m1 l.head).bind fun h1 =>
    (setPrev m1 new_node h1.prev).bind fun m2 =>
    (load m2 l.head).bind fun h2 =>
    (setNext m2 h2.prev new_node).bind fun m3 =>
    (setPrev m3 l.head new_node).bind fun m4 =>
    .ok (CyclicList.mk m4 l.head (l.size_ + 1))

/-- The constructor `CyclicList(std::initializer_list<T>)`. -/
def ctor_init (init : List α) : Except (Fault α) (CyclicList α) :=
  init.foldl (fun acc item => acc.bind fun l => l.push_back item) (.ok ctor)

/-- The member `pop_front()`. -/
def pop_front (l : CyclicList α) : Except (Fault α) (CyclicList α) :=
  if l.empty then .error (.out_of_range l)
  else if l.size_ = 1 then
    -- head.reset();
    .ok (CyclicList.mk l.mem none (l.size_ - 1))
  else
    -- auto old_head = head; head = head->next;
    let old_head := l.head
    (load l.mem l.head).bind fun h0 =>
    let head := h0.next
    -- head->prev = old_head->prev;
    (load l.mem old_head).bind fun o1 =>
    (setPrev l.mem head o1.prev).bind fun m1 =>
    -- old_head->prev.lock()->next = head;
    (load m1 old_head).bind fun o2 =>
    (setNext m1 o2.prev head).bind fun m2 =>
    .ok (CyclicList.mk m2 head (l.size_ - 1))

/-- The member `pop_back()`. -/
def pop_back (l : CyclicList α) : Except (Fault α) (CyclicList α) :=
  if l.empty then .error (.out_of_range l)
  else if l.size_ = 1 then
    .ok (CyclicList.mk l.mem none (l.size_ - 1))
  else
    -- auto last_node = head->prev.lock();
    (load l.mem l.head).bind fun h0 =>
    let last_node := h0.prev
    -- last_node->prev.lock()->next = head;
    (load l.mem last_node).bind fun t1 =>
    (setNext l.mem t1.prev l.head).bind fun m1 =>
    -- head->prev = last_node->prev;
    (load m1 last_node).bind fun t2 =>
    (setPrev m1 l.head t2.prev).bind fun m2 =>
    .ok (CyclicList.mk m2 l.head (l.size_ - 1))

/-- The member `insert(pos, value)`; the answer is the container afterwards and the cursor returned. -/
def insert (l : CyclicList α) (pos : iterator) (value : α) :
    Except (Fault α) (CyclicList α × iterator) :=
  if pos.op_eq l.begin then
    (l.push_front value).bind fun l1 => .ok (l1, l1.begin)
  else if pos.op_eq l.end_ then
    (l.push_back value).bind fun l1 =>
    (l1.end_.op_dec l1.mem).bind fun r => .ok (l1, r)
  else
    let new_node := (make_shared l.mem value).1
    let m0 := (make_shared l.mem value).2
    -- auto prev_node = pos.current->prev.lock();
    (load m0 pos.current).bind fun c =>
    let prev_node := c.prev
    -- new_node->next = pos.current; new_node->prev = prev_node;
    (setNext m0 new_node pos.current).bind fun m1 =>
    (setPrev m1 new_node prev_node).bind fun m2 =>
    -- prev_node->next = new_node; pos.current->prev = new_node;
    (setNext m2 prev_node new_node).bind fun m3 =>
    (setPrev m3 pos.current new_node).bind fun m4 =>
    .ok (CyclicList.mk m4 l.head (l.size_ + 1), iterator.mk new_node l.head false)

/-- The member `erase(pos)`; the answer is the container afterwards and the cursor returned. -/
def erase (l : CyclicList α) (pos : iterator) :
    Except (Fault α) (CyclicList α × iterator) :=
  if l.empty then .error (.out_of_range l)
  else if pos.op_eq l.end_ then .ok (l, pos)
  else if pos.op_eq l.begin then
    (l.pop_front).bind fun l1 => .ok (l1, l1.begin)
  else
    -- auto next_node = pos.current->next; auto prev_node = pos.current->prev.lock();
    (load l.mem pos.current).bind fun c =>
    let next_node := c.next
    let prev_node := c.prev
    -- prev_node->next = next_node; next_node->prev = prev_node;
    (setNext l.mem prev_node next_node).bind fun m1 =>
    (setPrev m1 next_node prev_node).bind fun m2 =>
    .ok (CyclicList.mk m2 l.head (l.size_ - 1), iterator.mk next_node l.head false)

/-- The loop of `operator==`, started at the cursors `it1`, `it2`. -/
def eq_loop [DecidableEq α] (a b : CyclicList α) :
    Nat → const_iterator → const_iterator → Option (Except (Fault α) Bool)
  | 0, _, _ => none
  | fuel + 1, it1, it2 =>
    if it1.op_ne a.cend && it2.op_ne b.cend then
      match it1.op_deref a.mem, it2.op_deref b.mem with
      | .error e, _ => some (.error e)
      | .ok _, .error e => some (.error e)
      | .ok x, .ok y =>
        if x ≠ y then some (.ok false)
        else
          match it1.op_inc a.mem, it2.op_inc b.mem with
          | .error e, _ => some (.error e)
          | .ok _, .error e => some (.error e)
          | .ok j1, .ok j2 => eq_loop a b fuel j1 j2
    else some (.ok true)

/-- The member `operator==`. -/
def op_eq [DecidableEq α] (fuel : Nat) (a b : CyclicList α) : Option (Except (Fault α) Bool) :=
  if a.size_ ≠ b.size_ then some (.ok false)
  else eq_loop a b fuel a.cbegin b.cbegin

/-- The member `operator!=`. -/
def op_ne [DecidableEq α] (fuel : Nat) (a b : CyclicList α) : Option (Except (Fault α) Bool) :=
  (op_eq fuel a b).map fun r => r.map fun t => !t

/-- The loop `for (auto it = begin(); it != end(); ++it) visit(*it)`, answering the values visited. -/
def traverse (l : CyclicList α) : Nat → iterator → Option (Except (Fault α) (List α))
  | 0, _ => none
  | fuel + 1, it =>
    if it.op_ne l.end_ then
      match it.op_deref l.mem with
      | .error e => some (.error e)
      | .ok x =>
        match it.op_inc l.mem with
        | .error e => some (.error e)
        | .ok it1 => (traverse l fuel it1).map fun r => r.map fun xs => x :: xs
    else some (.ok [])

/-- The member `clear()`: the loop `while (!empty()) pop_front();`. -/
def clear : Nat → CyclicList α → Option (Except (Fault α) (CyclicList α))
  | 0, _ => none
  | fuel + 1, l =>
    if !l.empty then
      match l.pop_front with
      | .error e => some (.error e)
      | .ok l1 => clear fuel l1
    else some (.ok l)

end CyclicList

/-! ## Sample containers -/

/-- The container `{1, 3}` of the test `Insert`, as the initializer-list constructor builds it. -/
def sample13 : CyclicList Nat :=
  CyclicList.mk [Node.mk 1 (some 1) (some 1), Node.mk 3 (some 0) (some 0)] (some 0) 2

/-- The container `{1, 2, 3}` of the tests, as the initializer-list constructor builds it. -/
def sample123 : CyclicList Nat :=
  CyclicList.mk [Node.mk 1 (some 1) (some 2), Node.mk 2 (some 2) (some 0),
    Node.mk 3 (some 0) (some 1)] (some 0) 3

/-- The container `{1}`. -/
def sample1 : CyclicList Nat :=
  CyclicList.mk [Node.mk 1 (some 0) (some 0)] (some 0) 1

/-! ## The ring invariant -/

section invariant

variable {α : Type}

/-- Index of the successor of position `k` on a ring of `n` positions. -/
def succIdx (n k : Nat) : Nat := if k + 1 = n then 0 else k + 1

/-- Index of the predecessor of position `k` on a ring of `n` positions. -/
def predIdx (n k : Nat) : Nat := if k = 0 then n - 1 else k - 1

/-- The arena `m` holds, at the pairwise distinct addresses `ns`, nodes that carry the values
`vs` and whose `next` / `prev` links close them into a ring in that order. -/
def Linked (m : List (Node α)) (ns : List Nat) (vs : List α) : Prop :=
  vs.length = ns.length ∧ ns.Nodup ∧
  ∀ k, k < ns.length →
    (ns[k]?).bind (fun a => m[a]?) =
      (vs[k]?).map (fun v => Node.mk v ns[succIdx ns.length k]? ns[predIdx ns.length k]?)

/-- The container `l` is a well-formed ring: its nodes in traversal order are at the addresses
`ns`, they carry the values `vs`, `head` is the first of them (null when there is none) and
`size_` counts them. -/
def Ring (l : CyclicList α) (ns : List Nat) (vs : List α) : Prop :=
  l.size_ = ns.length ∧ l.head = ns[0]? ∧ Linked l.mem ns vs

instance instDecidableLinked [DecidableEq α] (m : List (Node α)) (ns : List Nat) (vs : List α) :
    Decidable (Linked m ns vs) := by
  unfold Linked; infer_instance

instance instDecidableRing [DecidableEq α] (l : CyclicList α) (ns : List Nat) (vs : List α) :
    Decidable (Ring l ns vs) := by
  unfold Ring; infer_instance

instance instDecidableEqExcept {ε β : Type} [DecidableEq ε] [DecidableEq β] :
    DecidableEq (Except ε β) := fun x y =>
  match x, y with
  | .ok a, .ok b => if h : a = b then isTrue (by rw [h]) else isFalse (by intro c; cases c; exact h rfl)
  | .error a, .error b =>
    if h : a = b then isTrue (by rw [h]) else isFalse (by intro c; cases c; exact h rfl)
  | .ok _, .error _ => isFalse (by intro c; cases c)
  | .error _, .ok _ => isFalse (by intro c; cases c)

/-- The node the `next` link of `*p` refers to (null when `p` is null or dangling). -/
def next_of (m : List (Node α)) (p : Ptr) : Ptr :=
  p.bind fun a => (m[a]?).bind fun nd => nd.next

/-- The node the `prev` link of `*p` refers to (null when `p` is null or dangling). -/
def prev_of (m : List (Node α)) (p : Ptr) : Ptr :=
  p.bind fun a => (m[a]?).bind fun nd => nd.prev

/-- Following `next` links `k` times, starting at `p`. -/
def follow (m : List (Node α)) : Nat → Ptr → Ptr
  | 0, p => p
  | k + 1, p => follow m k (next_of m p)

end invariant

/-! ## Sequences of public calls -/

section calls

variable {α : Type}

/-- The mutating public calls. The cursor handed to `insert` / `erase` is given by how it is
obtained: `some k` is `begin()` advanced `k` times with `++`, `none` is `end()`. -/
inductive Call (α : Type) where
  | push_front (value : α)
  | push_back (value : α)
  | pop_front
  | pop_back
  | clear
  | insert (pos : Option Nat) (value : α)
  | erase (pos : Option Nat)
deriving DecidableEq

/-- The cursor a position stands for. -/
def cursor (l : CyclicList α) : Option Nat → Except (Fault α) iterator
  | none => .ok l.end_
  | some k => iterator.advance l.mem k l.begin

/-- The position denotes an element of the container, or `end()`. -/
def denotes (l : CyclicList α) : Option Nat → Bool
  | none => true
  | some k => decide (k < l.size_)

/-- The cursor argument of the call, when it has one, denotes an element or `end()`. -/
def Call.admissible (l : CyclicList α) : Call α → Bool
  | .insert pos _ => denotes l pos
  | .erase pos => denotes l pos
  | _ => true

/-- One call on the container `l`, answering the container afterwards (the cursor that
`insert` / `erase` return is dropped). The loop of `clear()` gets `size_ + 1` rounds. -/
def perform (l : CyclicList α) : Call α → Option (Except (Fault α) (CyclicList α))
  | .push_front value => some (l.push_front value)
  | .push_back value => some (l.push_back value)
  | .pop_front => some l.pop_front
  | .pop_back => some l.pop_back
  | .clear => l.clear (l.size_ + 1)
  | .insert pos value =>
    some ((cursor l pos).bind fun it => (l.insert it value).bind fun r => .ok r.1)
  | .erase pos =>
    some ((cursor l pos).bind fun it => (l.erase it).bind fun r => .ok r.1)

/-- The container the caller holds after a call: the one a returning call leaves, or the one
an `out_of_range` exception leaves behind. Undefined behaviour and an unfinished loop leave
none. -/
def after : Option (Except (Fault α) (CyclicList α)) → Option (CyclicList α)
  | some (.ok l) => some l
  | some (.error (.out_of_range st)) => some st
  | some (.error .undefined) => none
  | none => none

/-- A sequence of admissible calls, one after the other. -/
def run : List (Call α) → CyclicList α → Option (CyclicList α)
  | [], l => some l
  | c :: cs, l =>
    if c.admissible l then
      match after (perform l c) with
      | some l1 => run cs l1
      | none => none
    else none

/-- The container after `push_back(1)`, `push_back(2)` (the test `PushBack`). -/
def sample12 : CyclicList Nat :=
  CyclicList.mk [Node.mk 1 (some 1) (some 1), Node.mk 2 (some 0) (some 0)] (some 0) 2

/-- A sequence of calls: `push_back(1)`, `push_front(0)`, `insert(++begin(), 5)`,
`erase(end())`, `pop_back()`, `insert(end(), 7)`, `erase(begin())`. -/
def sample_calls : List (Call Nat) :=
  [Call.push_back 1, Call.push_front 0, Call.insert (some 1) 5, Call.erase none,
    Call.pop_back, Call.insert none 7, Call.erase (some 0)]

/-- The container `{5, 7}` the calls `sample_calls` leave, with the two unlinked nodes still in
the arena. -/
def sample_run : CyclicList Nat :=
  CyclicList.mk [Node.mk 1 (some 1) (some 2), Node.mk 0 (some 2) (some 3),
    Node.mk 5 (some 3) (some 3), Node.mk 7 (some 2) (some 2)] (some 2) 2

end calls

/-! ## Ownership

`next` is a `std::shared_ptr` and `head` is one too: each keeps the node it refers to from being
reclaimed. `prev` is a `std::weak_ptr` and keeps nothing. A node is reclaimed when the last
`shared_ptr` to it goes, and with it goes its own `next`. What follows describes the heap once a
call has returned and the caller holds no cursor. -/

section ownership

variable {α : Type}

/-- One round of releasing: of the nodes `live`, those that `head` or the `next` link of a node
of `live` refers to. -/
def sweep (l : CyclicList α) (live : List Nat) : List Nat :=
  live.filter fun a =>
    decide (l.head = some a) || live.any fun b => decide (next_of l.mem (some b) = some a)

/-- Rounds of releasing, `k` of them. -/
def sweeps (l : CyclicList α) : Nat → List Nat → List Nat
  | 0, live => live
  | k + 1, live => sweeps l k (sweep l live)

/-- The nodes of the arena that are not reclaimed: what is left of all of them when releasing has
come to rest (each round that changes anything drops a node, so as many rounds as there are
nodes are enough). -/
def alive (l : CyclicList α) : List Nat :=
  sweeps l l.mem.length (List.range l.mem.length)

/-- The `use_count()` of the node at address `a`: the owning references to it, from `head` and
from the `next` links of the nodes that are not reclaimed. -/
def use_count (l : CyclicList α) (a : Nat) : Nat :=
  (if l.head = some a then 1 else 0) +
    ((alive l).filter fun b => decide (next_of l.mem (some b) = some a)).length

end ownership

end Cyclic
/-! ## Memory lemmas -/

namespace Cyclic

open CyclicList

variable {α : Type}

theorem idx_inj {ns : List Nat} (hnd : ns.Nodup) {i j a b : Nat}
    (hi : ns[i]? = some a) (hj : ns[j]? = some b) : a = b ↔ i = j := by
  obtain ⟨h1, e1⟩ := List.getElem?_eq_some.mp hi
  obtain ⟨h2, e2⟩ := List.getElem?_eq_some.mp hj
  rw [← e1, ← e2]
  exact hnd.getElem_inj_iff

theorem Linked.node {m : List (Node α)} {ns : List Nat} {vs : List α} (h : Linked m ns vs)
    {k a : Nat} (hk : ns[k]? = some a) :
    ∃ v, vs[k]? = some v ∧
      m[a]? = some (Node.mk v ns[succIdx ns.length k]? ns[predIdx ns.length k]?) := by
  obtain ⟨hl, _, hn⟩ := h
  obtain ⟨hlt, _⟩ := List.getElem?_eq_some.mp hk
  have h1 := hn k hlt
  have hv : vs[k]? = some vs[k] := List.getElem?_eq_getElem (by omega)
  rw [hk, hv] at h1
  exact ⟨_, hv, by simpa using h1⟩

theorem Linked.intro {m : List (Node α)} {ns : List Nat} {vs : List α}
    (hl : vs.length = ns.length) (hnd : ns.Nodup)
    (hn : ∀ k a v, ns[k]? = some a → vs[k]? = some v →
      m[a]? = some (Node.mk v ns[succIdx ns.length k]? ns[predIdx ns.length k]?)) :
    Linked m ns vs := by
  refine ⟨hl, hnd, fun k hk => ?_⟩
  have ha : ns[k]? = some ns[k] := List.getElem?_eq_getElem hk
  have hv : vs[k]? = some vs[k] := List.getElem?_eq_getElem (by omega)
  rw [ha, hv]
  simpa using hn k _ _ ha hv

theorem getElem?_insertAt {β : Type} (l : List β) (i k : Nat) (x : β) (hi : i ≤ l.length) :
    (l.take i ++ x :: l.drop i)[k]? = if k < i then l[k]? else if k = i then some x else l[k-1]? := by
  rw [List.getElem?_append]
  simp only [List.length_take, Nat.min_eq_left hi]
  split_ifs with h1 h2
  · rw [List.getElem?_take]; simp [h1]
  · subst h2; simp
  · have : k - i = (k - i - 1) + 1 := by omega
    rw [this, List.getElem?_cons_succ, List.getElem?_drop]
    congr 1; omega

theorem Linked.splice {m : List (Node α)} {ns : List Nat} {vs : List α} (h : Linked m ns vs)
    (hne : 0 < ns.length) {i : Nat} (hi : i ≤ ns.length) {p q : Nat} (v : α)
    (hp : ns[if i = ns.length then 0 else i]? = some p) (hq : ns[predIdx ns.length i]? = some q)
    {m1 : List (Node α)}
    (hm : ∀ b, m1[b]? = if b = m.length then some (Node.mk v (some p) (some q))
      else (m[b]?).map (fun nd => Node.mk nd.data (if b = q then some m.length else nd.next)
        (if b = p then some m.length else nd.prev))) :
    Linked m1 (ns.take i ++ m.length :: ns.drop i) (vs.take i ++ v :: vs.drop i) := by
  have hl := h.1
  have hnd := h.2.1
  have hlt : ∀ a ∈ ns, a < m.length := by
    intro a ha
    obtain ⟨k, hk⟩ := List.mem_iff_getElem?.mp ha
    obtain ⟨v, _, hv⟩ := h.node hk
    exact (List.getElem?_eq_some.mp hv).1
  have hi2 : i ≤ vs.length := by omega
  apply Linked.intro
  · simp; omega
  · rw [List.nodup_middle, List.take_append_drop, List.nodup_cons]
    exact ⟨fun hc => Nat.lt_irrefl _ (hlt _ hc), hnd⟩
  · intro k a w hka hkw
    rw [getElem?_insertAt _ _ _ _ hi] at hka
    rw [getElem?_insertAt _ _ _ _ hi2] at hkw
    have hlen : (ns.take i ++ m.length :: ns.drop i).length = ns.length + 1 := by simp; omega
    rw [hlen, hm, getElem?_insertAt _ _ _ _ hi, getElem?_insertAt _ _ _ _ hi]
    rcases Nat.lt_trichotomy k i with hlt1 | heq | hgt
    · rw [if_pos hlt1] at hka hkw
      obtain ⟨w1, hw1, hma⟩ := h.node hka
      have hw : w1 = w := by rw [hkw] at hw1; exact (Option.some.inj hw1).symm
      subst hw
      have hq1 := idx_inj hnd hka hq
      have hp1 := idx_inj hnd hka hp
      have hM : a ≠ m.length := Nat.ne_of_lt (hlt a (List.mem_iff_getElem?.mpr ⟨k, hka⟩))
      rw [if_neg hM, hma]
      simp only [Option.map_some', hq1, hp1, succIdx, predIdx]
      clear hq1 hp1 hm hma hM hka hkw hw1 hlt hnd hl hp hq h hlen hi2
      congr 2
      · (repeat' split) <;> first | (with_reducible rfl) | omega | (exfalso; assumption) | (congr 1 <;> omega)
      · (repeat' split) <;> first | (with_reducible rfl) | omega | (exfalso; assumption) | (congr 1 <;> omega)
    · subst heq
      simp only [Nat.lt_irrefl, if_false, if_true, Option.some.injEq] at hka hkw
      subst hka hkw
      simp only [if_true, succIdx, predIdx, Option.some.injEq, Node.mk.injEq, true_and]
      rw [← hp, ← hq]
      simp only [predIdx]
      clear hm hlt hnd hl hp hq h hlen hi2
      constructor
      · (repeat' split) <;> first | (with_reducible rfl) | omega | (exfalso; assumption) | (congr 1 <;> omega)
      · (repeat' split) <;> first | (with_reducible rfl) | omega | (exfalso; assumption) | (congr 1 <;> omega)
    · have h1 : ¬ k < i := by omega
      have h2 : ¬ k = i := by omega
      rw [if_neg h1, if_neg h2] at hka hkw
      obtain ⟨w1, hw1, hma⟩ := h.node hka
      have hw : w1 = w := by rw [hkw] at hw1; exact (Option.some.inj hw1).symm
      subst hw
      have hq1 := idx_inj hnd hka hq
      have hp1 := idx_inj hnd hka hp
      have hM : a ≠ m.length := Nat.ne_of_lt (hlt a (List.mem_iff_getElem?.mpr ⟨_, hka⟩))
      have hkn : k - 1 < ns.length := (List.getElem?_eq_some.mp hka).1
      rw [if_neg hM, hma]
      simp only [Option.map_some', hq1, hp1, succIdx, predIdx]
      clear hq1 hp1 hm hma hM hka hkw hw1 hlt hnd hl hp hq h hlen hi2
      congr 2
      · (repeat' split) <;> first | (with_reducible rfl) | omega | (exfalso; assumption) | (congr 1 <;> omega)
      · (repeat' split) <;> first | (with_reducible rfl) | omega | (exfalso; assumption) | (congr 1 <;> omega)

theorem Linked.unlink {m : List (Node α)} {ns : List Nat} {vs : List α} (h : Linked m ns vs)
    (hn : 2 ≤ ns.length) {i : Nat} {x p s : Nat}
    (hx : ns[i]? = some x) (hp : ns[predIdx ns.length i]? = some p)
    (hs : ns[succIdx ns.length i]? = some s) {m1 : List (Node α)}
    (hm : ∀ b, b ≠ x → m1[b]? = (m[b]?).map (fun nd =>
      Node.mk nd.data (if b = p then some s else nd.next) (if b = s then some p else nd.prev))) :
    Linked m1 (ns.eraseIdx i) (vs.eraseIdx i) := by
  have hl := h.1
  have hnd := h.2.1
  have hi : i < ns.length := (List.getElem?_eq_some.mp hx).1
  apply Linked.intro
  · simp [List.length_eraseIdx, hi, hl]
  · exact hnd.sublist (List.eraseIdx_sublist _ _)
  · intro k a w hka hkw
    rw [List.getElem?_eraseIdx] at hka hkw
    have hlen : (ns.eraseIdx i).length = ns.length - 1 := by simp [List.length_eraseIdx, hi]
    rw [hlen, List.getElem?_eraseIdx, List.getElem?_eraseIdx]
    by_cases hlt1 : k < i
    · rw [if_pos hlt1] at hka hkw
      obtain ⟨w1, hw1, hma⟩ := h.node hka
      have hw : w1 = w := by rw [hkw] at hw1; exact (Option.some.inj hw1).symm
      subst hw
      have hx1 := idx_inj hnd hka hx
      have hp1 := idx_inj hnd hka hp
      have hs1 := idx_inj hnd hka hs
      have hax : a ≠ x := by rw [Ne, hx1]; omega
      rw [hm a hax, hma]
      simp only [Option.map_some', hp1, hs1]
      rw [← hp, ← hs]
      simp only [succIdx, predIdx]
      clear hp1 hs1 hx1 hax hm hma hka hkw hw1 hnd hl hp hs hx h hlen
      congr 2
      · (repeat' split) <;> first | (with_reducible rfl) | omega | (exfalso; assumption) | (congr 1 <;> omega)
      · (repeat' split) <;> first | (with_reducible rfl) | omega | (exfalso; assumption) | (congr 1 <;> omega)
    · rw [if_neg hlt1] at hka hkw
      obtain ⟨w1, hw1, hma⟩ := h.node hka
      have hw : w1 = w := by rw [hkw] at hw1; exact (Option.some.inj hw1).symm
      subst hw
      have hx1 := idx_inj hnd hka hx
      have hp1 := idx_inj hnd hka hp
      have hs1 := idx_inj hnd hka hs
      have hkn : k + 1 < ns.length := (List.getElem?_eq_some.mp hka).1
      have hax : a ≠ x := by rw [Ne, hx1]; omega
      rw [hm a hax, hma]
      simp only [Option.map_some', hp1, hs1]
      rw [← hp, ← hs]
      simp only [succIdx, predIdx]
      clear hp1 hs1 hx1 hax hm hma hka hkw hw1 hnd hl hp hs hx h hlen
      congr 2
      · (repeat' split) <;> first | (with_reducible rfl) | omega | (exfalso; assumption) | (congr 1 <;> omega)
      · (repeat' split) <;> first | (with_reducible rfl) | omega | (exfalso; assumption) | (congr 1 <;> omega)

theorem load_of_get {m : List (Node α)} {a : Nat} {nd : Node α} (h : m[a]? = some nd) :
    load m (some a) = .ok nd := by
  simp [load, h]

theorem store_spec {m : List (Node α)} {a : Nat} (h : a < m.length)
    (f : Node α → Node α) :
    ∃ m1, store m (some a) f = .ok m1 ∧ m1.length = m.length ∧
      ∀ b, m1[b]? = if b = a then (m[b]?).map f else m[b]? := by
  have hg : m[a]? = some m[a] := List.getElem?_eq_getElem h
  refine ⟨m.set a (f m[a]), by simp [store, hg], by simp, fun b => ?_⟩
  rw [List.getElem?_set]
  by_cases hb : b = a
  · subst hb; simp [h]
  · have : ¬ a = b := fun e => hb e.symm
    simp [hb, this]

theorem setNext_spec {m : List (Node α)} {a : Nat} (h : a < m.length) (x : Ptr) :
    ∃ m1, setNext m (some a) x = .ok m1 ∧ m1.length = m.length ∧
      ∀ b, m1[b]? = if b = a then (m[b]?).map (fun nd => Node.mk nd.data x nd.prev)
        else m[b]? :=
  store_spec h _

theorem setPrev_spec {m : List (Node α)} {a : Nat} (h : a < m.length) (x : Ptr) :
    ∃ m1, setPrev m (some a) x = .ok m1 ∧ m1.length = m.length ∧
      ∀ b, m1[b]? = if b = a then (m[b]?).map (fun nd => Node.mk nd.data nd.next x)
        else m[b]? :=
  store_spec h _

theorem make_shared_spec (m : List (Node α)) (v : α) (b : Nat) :
    (make_shared m v).2[b]? = if b = m.length then some (Node.mk v none none) else m[b]? := by
  simp only [make_shared, List.getElem?_append]
  by_cases h1 : b < m.length
  · simp [h1, Nat.ne_of_lt h1]
  · by_cases h2 : b = m.length
    · subst h2; simp
    · have h3 : b - m.length = (b - m.length - 1) + 1 := by omega
      have h4 : m.length ≤ b := by omega
      rw [if_neg h1, if_neg h2, h3, List.getElem?_cons_succ, List.getElem?_eq_none h4]
      simp

theorem make_shared_length (m : List (Node α)) (v : α) :
    (make_shared m v).2.length = m.length + 1 := by
  simp [make_shared]

theorem make_shared_fst (m : List (Node α)) (v : α) :
    (make_shared m v).1 = some m.length := rfl

theorem bind_ok {ε β γ : Type} (x : β) (f : β → Except ε γ) : (Except.ok x).bind f = f x := rfl

/-- The code shared by the non-empty branches of `push_front` and `push_back`: the new node is
spliced in between the last node and the head node. -/
theorem splice_before_head {l : CyclicList α} {ns : List Nat} {vs : List α} (h : Ring l ns vs)
    (hne : 0 < ns.length) (v : α) :
    ∃ m4,
      (∀ (γ : Type) (k : List (Node α) → Except (Fault α) γ),
        ((setNext (make_shared l.mem v).2 (some l.mem.length) l.head).bind fun m1 =>
          (load m1 l.head).bind fun h1 =>
          (setPrev m1 (some l.mem.length) h1.prev).bind fun m2 =>
          (load m2 l.head).bind fun h2 =>
          (setNext m2 h2.prev (some l.mem.length)).bind fun m3 =>
          (setPrev m3 l.head (some l.mem.length)).bind k) = k m4) ∧
      m4.length = l.mem.length + 1 ∧
      Linked m4 (ns ++ [l.mem.length]) (vs ++ [v]) ∧
      Linked m4 (l.mem.length :: ns) (v :: vs) := by
  obtain ⟨hs, hh, hL⟩ := h
  have h0 : ns[0]? = some ns[0] := List.getElem?_eq_getElem hne
  have hq : ns[predIdx ns.length 0]? = some ns[ns.length - 1] := by
    rw [predIdx, if_pos rfl]; exact List.getElem?_eq_getElem (by omega)
  obtain ⟨v0, hv0, hn0⟩ := hL.node h0
  obtain ⟨vq, hvq, hnq⟩ := hL.node hq
  generalize ns[0] = p at *
  generalize ns[ns.length - 1] = q at *
  rw [hq] at hn0
  have hlp : p < l.mem.length := (List.getElem?_eq_some.mp hn0).1
  have hlq : q < l.mem.length := (List.getElem?_eq_some.mp hnq).1
  have hpM : p ≠ l.mem.length := Nat.ne_of_lt hlp
  have hqM : q ≠ l.mem.length := Nat.ne_of_lt hlq
  rw [h0] at hh
  have g0 := make_shared_spec l.mem v
  have l0 := make_shared_length l.mem v
  obtain ⟨m1, e1, l1, g1⟩ := setNext_spec (m := (make_shared l.mem v).2) (a := l.mem.length)
    (by omega) (some p)
  have r1 : load m1 (some p) = .ok _ := load_of_get (by
    rw [g1, if_neg hpM, g0, if_neg hpM]; exact hn0)
  obtain ⟨m2, e2, l2, g2⟩ := setPrev_spec (m := m1) (a := l.mem.length) (by omega) (some q)
  have r2 : load m2 (some p) = .ok _ := load_of_get (by
    rw [g2, if_neg hpM, g1, if_neg hpM, g0, if_neg hpM]; exact hn0)
  obtain ⟨m3, e3, l3, g3⟩ := setNext_spec (m := m2) (a := q) (by omega) (some l.mem.length)
  obtain ⟨m4, e4, l4, g4⟩ := setPrev_spec (m := m3) (a := p) (by omega) (some l.mem.length)
  have hm : ∀ b, m4[b]? = if b = l.mem.length then some (Node.mk v (some p) (some q))
      else (l.mem[b]?).map (fun nd => Node.mk nd.data
        (if b = q then some l.mem.length else nd.next)
        (if b = p then some l.mem.length else nd.prev)) := by
    intro b
    rw [g4, g3, g2, g1, g0]
    by_cases c1 : b = l.mem.length
    · subst c1; simp [hpM.symm, hqM.symm]
    · by_cases c2 : b = p <;> by_cases c3 : b = q <;> (try subst c2) <;> (try subst c3) <;>
        cases hb : l.mem[b]? <;> simp [*]
  refine ⟨m4, ?_, by omega, ?_, ?_⟩
  · intro γ k
    simp only [hh, e1, bind_ok, r1, e2, r2, e3, e4]
  · have := hL.splice hne (Nat.le_refl _) v (p := p) (q := q) (by simpa using h0)
      (by simpa [predIdx, Nat.ne_of_gt hne] using hq) hm
    simpa [List.take_of_length_le (Nat.le_of_eq hL.1), List.drop_of_length_le (Nat.le_of_eq hL.1)]
      using this
  · have := hL.splice hne (Nat.zero_le _) v (p := p) (q := q)
      (by simpa [Nat.ne_of_lt hne] using h0) hq hm
    simpa using this

/-- The code shared by the empty branches of `push_front` and `push_back`. -/
theorem link_first (m : List (Node α)) (v : α) :
    ∃ m2,
      (∀ (γ : Type) (k : List (Node α) → Except (Fault α) γ),
        ((setNext (make_shared m v).2 (some m.length) (some m.length)).bind fun m1 =>
          (setPrev m1 (some m.length) (some m.length)).bind k) = k m2) ∧
      m2.length = m.length + 1 ∧ Linked m2 [m.length] [v] := by
  have g0 := make_shared_spec m v
  have l0 := make_shared_length m v
  obtain ⟨m1, e1, l1, g1⟩ := setNext_spec (m := (make_shared m v).2) (a := m.length)
    (by omega) (some m.length)
  obtain ⟨m2, e2, l2, g2⟩ := setPrev_spec (m := m1) (a := m.length) (by omega) (some m.length)
  refine ⟨m2, ?_, by omega, ?_⟩
  · intro γ k
    simp only [e1, bind_ok, e2]
  · apply Linked.intro (by simp) (List.nodup_singleton _)
    intro k a w hk hw
    have hk0 : k = 0 := by
      have := (List.getElem?_eq_some.mp hk).1
      simpa using this
    subst hk0
    simp only [List.getElem?_cons_zero, Option.some.injEq] at hk hw
    subst hk hw
    rw [g2, g1, g0]
    simp [succIdx, predIdx]

theorem Ring.empty_eq {l : CyclicList α} {ns : List Nat} {vs : List α} (h : Ring l ns vs) :
    l.empty = decide (ns.length = 0) := by
  simp [empty, h.1]

theorem push_back_ring {l : CyclicList α} {ns : List Nat} {vs : List α} (h : Ring l ns vs)
    (v : α) :
    ∃ l1, push_back l v = .ok l1 ∧ Ring l1 (ns ++ [l.mem.length]) (vs ++ [v]) ∧
      l1.mem.length = l.mem.length + 1 ∧ l1.head = (ns ++ [l.mem.length])[0]? := by
  by_cases hn : ns.length = 0
  · have hns : ns = [] := List.length_eq_zero.mp hn
    have hvs : vs = [] := List.length_eq_zero.mp (by rw [h.2.2.1, hn])
    obtain ⟨m2, e, len, hL⟩ := link_first l.mem v
    subst hns hvs
    refine ⟨CyclicList.mk m2 (some l.mem.length) (l.size_ + 1), ?_, ?_, len, rfl⟩
    · simp only [push_back, h.empty_eq, List.length_nil, decide_True, if_true, make_shared_fst, e]
    · exact ⟨by simp [h.1], rfl, hL⟩
  · have hpos : 0 < ns.length := Nat.pos_of_ne_zero hn
    obtain ⟨m4, e, len, hL, _⟩ := splice_before_head h hpos v
    refine ⟨CyclicList.mk m4 l.head (l.size_ + 1), ?_, ?_, len, ?_⟩
    · simp only [push_back, h.empty_eq, hn, decide_False, Bool.false_eq_true, if_false, make_shared_fst, e]
    · refine ⟨by simp [h.1], ?_, hL⟩
      rw [List.getElem?_append_left hpos]; exact h.2.1
    · rw [List.getElem?_append_left hpos]; exact h.2.1

theorem push_front_ring {l : CyclicList α} {ns : List Nat} {vs : List α} (h : Ring l ns vs)
    (v : α) :
    ∃ l1, push_front l v = .ok l1 ∧ Ring l1 (l.mem.length :: ns) (v :: vs) ∧
      l1.mem.length = l.mem.length + 1 ∧ l1.head = some l.mem.length := by
  by_cases hn : ns.length = 0
  · have hns : ns = [] := List.length_eq_zero.mp hn
    have hvs : vs = [] := List.length_eq_zero.mp (by rw [h.2.2.1, hn])
    obtain ⟨m2, e, len, hL⟩ := link_first l.mem v
    subst hns hvs
    refine ⟨CyclicList.mk m2 (some l.mem.length) (l.size_ + 1), ?_, ?_, len, rfl⟩
    · simp only [push_front, h.empty_eq, List.length_nil, decide_True, if_true, make_shared_fst, e]
    · exact ⟨by simp [h.1], rfl, hL⟩
  · have hpos : 0 < ns.length := Nat.pos_of_ne_zero hn
    obtain ⟨m4, e, len, _, hL⟩ := splice_before_head h hpos v
    refine ⟨CyclicList.mk m4 (some l.mem.length) (l.size_ + 1), ?_, ?_, len, rfl⟩
    · simp only [push_front, h.empty_eq, hn, decide_False, Bool.false_eq_true, if_false, make_shared_fst, e]
    · exact ⟨by simp [h.1], by simp, hL⟩

theorem Linked.nil (m : List (Node α)) : Linked m [] ([] : List α) :=
  Linked.intro rfl List.nodup_nil (fun k a v hk _ => by simp at hk)

theorem pop_front_ring {l : CyclicList α} {ns : List Nat} {vs : List α} (h : Ring l ns vs)
    (hne : 0 < ns.length) :
    ∃ l1, pop_front l = .ok l1 ∧ Ring l1 (ns.eraseIdx 0) (vs.eraseIdx 0) ∧
      l1.mem.length = l.mem.length ∧ l1.head = ns[1]? := by
  have hemp : l.empty = false := by
    rw [h.empty_eq]; exact decide_eq_false (by omega)
  by_cases h1 : ns.length = 1
  · refine ⟨CyclicList.mk l.mem none (l.size_ - 1), ?_, ?_, rfl, ?_⟩
    · simp [pop_front, hemp, h.1, h1]
    · have e1 : ns.eraseIdx 0 = [] := List.length_eq_zero.mp (by
        rw [List.length_eraseIdx]; split <;> omega)
      have e2 : vs.eraseIdx 0 = [] := List.length_eq_zero.mp (by
        rw [List.length_eraseIdx, h.2.2.1]; split <;> omega)
      rw [e1, e2]
      exact ⟨by simp [h.1, h1], rfl, Linked.nil _⟩
    · simp [List.getElem?_eq_none, h1]
  · obtain ⟨hs, hh, hL⟩ := h
    have hnd := hL.2.1
    have hx : ns[0]? = some ns[0] := List.getElem?_eq_getElem hne
    have hsu : ns[succIdx ns.length 0]? = some ns[1] := by
      rw [succIdx, if_neg (by omega)]; exact List.getElem?_eq_getElem (by omega)
    have hpr : ns[predIdx ns.length 0]? = some ns[ns.length - 1] := by
      rw [predIdx, if_pos rfl]; exact List.getElem?_eq_getElem (by omega)
    have h1q : ns[1]? = some ns[1] := List.getElem?_eq_getElem (by omega)
    obtain ⟨vx, _, hnx⟩ := hL.node hx
    obtain ⟨vsu, _, hnsu⟩ := hL.node hsu
    obtain ⟨vpr, _, hnpr⟩ := hL.node hpr
    have hxs : ns[0] ≠ ns[1] := by
      rw [Ne, idx_inj hnd hx h1q]; omega
    generalize ns[0] = x at *
    generalize ns[1] = s at *
    generalize ns[ns.length - 1] = q at *
    rw [hsu, hpr] at hnx
    have hls : s < l.mem.length := (List.getElem?_eq_some.mp hnsu).1
    have hlq : q < l.mem.length := (List.getElem?_eq_some.mp hnpr).1
    rw [hx] at hh
    have r0 : load l.mem (some x) = .ok _ := load_of_get hnx
    obtain ⟨m1, e1, l1, g1⟩ := setPrev_spec (m := l.mem) (a := s) hls (some q)
    have r1 : load m1 (some x) = .ok _ := load_of_get (by rw [g1, if_neg hxs]; exact hnx)
    obtain ⟨m2, e2, l2, g2⟩ := setNext_spec (m := m1) (a := q) (by omega) (some s)
    have hm : ∀ b, b ≠ x → m2[b]? = (l.mem[b]?).map (fun nd => Node.mk nd.data
        (if b = q then some s else nd.next) (if b = s then some q else nd.prev)) := by
      intro b _
      rw [g2, g1]
      by_cases c2 : b = q <;> by_cases c3 : b = s <;> (try subst c2) <;> (try subst c3) <;>
        cases hb : l.mem[b]? <;> simp [*]
    refine ⟨CyclicList.mk m2 (some s) (l.size_ - 1), ?_, ?_, by simp; omega, by simp [h1q]⟩
    · simp only [pop_front, hemp, Bool.false_eq_true, if_false, hs, h1, hh, r0, bind_ok, e1, r1,
        e2]
    · refine ⟨by simp [hs, List.length_eraseIdx, hne], ?_, hL.unlink (by omega) hx hpr hsu hm⟩
      simp [List.getElem?_eraseIdx, h1q]

theorem pop_back_ring {l : CyclicList α} {ns : List Nat} {vs : List α} (h : Ring l ns vs)
    (hne : 0 < ns.length) :
    ∃ l1, pop_back l = .ok l1 ∧
      Ring l1 (ns.eraseIdx (ns.length - 1)) (vs.eraseIdx (ns.length - 1)) ∧
      l1.mem.length = l.mem.length := by
  have hemp : l.empty = false := by
    rw [h.empty_eq]; exact decide_eq_false (by omega)
  by_cases h1 : ns.length = 1
  · refine ⟨CyclicList.mk l.mem none (l.size_ - 1), ?_, ?_, rfl⟩
    · simp [pop_back, hemp, h.1, h1]
    · have e1 : ns.eraseIdx (ns.length - 1) = [] := List.length_eq_zero.mp (by
        rw [List.length_eraseIdx]; split <;> omega)
      have e2 : vs.eraseIdx (ns.length - 1) = [] := List.length_eq_zero.mp (by
        rw [List.length_eraseIdx, h.2.2.1]; split <;> omega)
      rw [e1, e2]
      exact ⟨by simp [h.1, h1], rfl, Linked.nil _⟩
  · obtain ⟨hs, hh, hL⟩ := h
    have hnd := hL.2.1
    have h0 : ns[0]? = some ns[0] := List.getElem?_eq_getElem hne
    have hx : ns[ns.length - 1]? = some ns[ns.length - 1] := List.getElem?_eq_getElem (by omega)
    have hpr0 : ns[predIdx ns.length 0]? = some ns[ns.length - 1] := by
      rw [predIdx, if_pos rfl]; exact hx
    have hsu : ns[succIdx ns.length (ns.length - 1)]? = some ns[0] := by
      rw [succIdx, if_pos (by omega)]; exact h0
    have hpr : ns[predIdx ns.length (ns.length - 1)]? = some ns[ns.length - 1 - 1] := by
      rw [predIdx, if_neg (by omega)]; exact List.getElem?_eq_getElem (by omega)
    obtain ⟨v0, _, hn0⟩ := hL.node h0
    obtain ⟨vx, _, hnx⟩ := hL.node hx
    obtain ⟨vpr, _, hnpr⟩ := hL.node hpr
    have hxr : ns[ns.length - 1] ≠ ns[ns.length - 1 - 1] := by
      rw [Ne, idx_inj hnd hx hpr]; unfold predIdx; split <;> omega
    generalize ns[0] = p at *
    generalize ns[ns.length - 1 - 1] = r at *
    generalize ns[ns.length - 1] = x at *
    rw [hpr0] at hn0
    rw [hsu, hpr] at hnx
    have hlp : p < l.mem.length := (List.getElem?_eq_some.mp hn0).1
    have hlr : r < l.mem.length := (List.getElem?_eq_some.mp hnpr).1
    rw [h0] at hh
    have r0 : load l.mem (some p) = .ok _ := load_of_get hn0
    have r1 : load l.mem (some x) = .ok _ := load_of_get hnx
    obtain ⟨m1, e1, l1, g1⟩ := setNext_spec (m := l.mem) (a := r) hlr (some p)
    have r2 : load m1 (some x) = .ok _ := load_of_get (by rw [g1, if_neg hxr]; exact hnx)
    obtain ⟨m2, e2, l2, g2⟩ := setPrev_spec (m := m1) (a := p) (by omega) (some r)
    have hm : ∀ b, b ≠ x → m2[b]? = (l.mem[b]?).map (fun nd => Node.mk nd.data
        (if b = r then some p else nd.next) (if b = p then some r else nd.prev)) := by
      intro b _
      rw [g2, g1]
      by_cases c2 : b = r <;> by_cases c3 : b = p <;> (try subst c2) <;> (try subst c3) <;>
        cases hb : l.mem[b]? <;> simp [*]
    refine ⟨CyclicList.mk m2 (some p) (l.size_ - 1), ?_, ?_, by simp; omega⟩
    · simp only [pop_back, hemp, Bool.false_eq_true, if_false, hs, h1, hh, r0, bind_ok, r1, e1,
        r2, e2]
    · refine ⟨by simp [hs, List.length_eraseIdx, hne], ?_, hL.unlink (by omega) hx hpr hsu hm⟩
      simp only [List.getElem?_eraseIdx]
      rw [if_pos (by omega)]; exact h0.symm

theorem succIdx_lt {n k : Nat} (h : k < n) : succIdx n k < n := by
  unfold succIdx; split <;> omega

theorem predIdx_lt {n k : Nat} (h : k < n) : predIdx n k < n := by
  unfold predIdx; split <;> omega

theorem exists_get {β : Type} (xs : List β) (k : Nat) (h : k < xs.length) :
    ∃ a, xs[k]? = some a :=
  ⟨_, List.getElem?_eq_getElem h⟩

theorem erase_mid {l : CyclicList α} {ns : List Nat} {vs : List α} (h : Ring l ns vs)
    {i x : Nat} (hi : 1 ≤ i) (hx : ns[i]? = some x) (hd : Ptr) :
    ∃ l1, erase l (iterator.mk (some x) hd false) =
        .ok (l1, iterator.mk ns[succIdx ns.length i]? l.head false) ∧
      Ring l1 (ns.eraseIdx i) (vs.eraseIdx i) ∧ l1.mem.length = l.mem.length ∧
      l1.head = l.head := by
  have hlt : i < ns.length := (List.getElem?_eq_some.mp hx).1
  have hemp : l.empty = false := by
    rw [h.empty_eq]; exact decide_eq_false (by omega)
  obtain ⟨hs, hh, hL⟩ := h
  have hnd := hL.2.1
  obtain ⟨p0, h0⟩ := exists_get ns 0 (by omega)
  obtain ⟨s, hsu⟩ := exists_get _ _ (succIdx_lt hlt)
  obtain ⟨p, hpr⟩ := exists_get _ _ (predIdx_lt hlt)
  obtain ⟨vx, _, hnx⟩ := hL.node hx
  obtain ⟨vsu, _, hnsu⟩ := hL.node hsu
  obtain ⟨vpr, _, hnpr⟩ := hL.node hpr
  have hx0 : x ≠ p0 := by
    rw [Ne, idx_inj hnd hx h0]; omega
  rw [hsu, hpr] at hnx
  have hls : s < l.mem.length := (List.getElem?_eq_some.mp hnsu).1
  have hlp : p < l.mem.length := (List.getElem?_eq_some.mp hnpr).1
  rw [h0] at hh
  have r0 : load l.mem (some x) = .ok _ := load_of_get hnx
  obtain ⟨m1, e1, l1, g1⟩ := setNext_spec (m := l.mem) (a := p) hlp (some s)
  obtain ⟨m2, e2, l2, g2⟩ := setPrev_spec (m := m1) (a := s) (by omega) (some p)
  have hm : ∀ b, b ≠ x → m2[b]? = (l.mem[b]?).map (fun nd => Node.mk nd.data
      (if b = p then some s else nd.next) (if b = s then some p else nd.prev)) := by
    intro b _
    rw [g2, g1]
    by_cases c2 : b = p <;> by_cases c3 : b = s <;> (try subst c2) <;> (try subst c3) <;>
      cases hb : l.mem[b]? <;> simp [*]
  refine ⟨CyclicList.mk m2 l.head (l.size_ - 1), ?_, ?_, by simp; omega, rfl⟩
  · simp only [CyclicList.erase, hemp, Bool.false_eq_true, if_false, iterator.op_eq, end_, begin, hh,
      Option.some.injEq, hx0, decide_False, Bool.false_and, Bool.and_false, r0, bind_ok, e1, e2, hsu]
  · refine ⟨by simp [hs, List.length_eraseIdx, hlt], ?_, hL.unlink (by omega) hx hpr hsu hm⟩
    simp only [List.getElem?_eraseIdx]
    rw [if_pos (by omega), hh]; exact h0.symm

theorem insert_mid {l : CyclicList α} {ns : List Nat} {vs : List α} (h : Ring l ns vs)
    {i x : Nat} (hi : 1 ≤ i) (hx : ns[i]? = some x) (hd : Ptr) (v : α) :
    ∃ l1, insert l (iterator.mk (some x) hd false) v =
        .ok (l1, iterator.mk (some l.mem.length) l.head false) ∧
      Ring l1 (ns.take i ++ l.mem.length :: ns.drop i) (vs.take i ++ v :: vs.drop i) ∧
      l1.mem.length = l.mem.length + 1 ∧ l1.head = l.head := by
  have hlt : i < ns.length := (List.getElem?_eq_some.mp hx).1
  obtain ⟨hs, hh, hL⟩ := h
  have hnd := hL.2.1
  obtain ⟨p0, h0⟩ := exists_get ns 0 (by omega)
  obtain ⟨q, hpr⟩ := exists_get _ _ (predIdx_lt hlt)
  obtain ⟨vx, _, hnx⟩ := hL.node hx
  obtain ⟨vpr, _, hnpr⟩ := hL.node hpr
  have hx0 : x ≠ p0 := by
    rw [Ne, idx_inj hnd hx h0]; omega
  rw [hpr] at hnx
  have hlx : x < l.mem.length := (List.getElem?_eq_some.mp hnx).1
  have hlq : q < l.mem.length := (List.getElem?_eq_some.mp hnpr).1
  have hxM : x ≠ l.mem.length := Nat.ne_of_lt hlx
  have hqM : q ≠ l.mem.length := Nat.ne_of_lt hlq
  rw [h0] at hh
  have g0 := make_shared_spec l.mem v
  have l0 := make_shared_length l.mem v
  have r0 : load (make_shared l.mem v).2 (some x) = .ok _ :=
    load_of_get (by rw [g0, if_neg hxM]; exact hnx)
  obtain ⟨m1, e1, l1, g1⟩ := setNext_spec (m := (make_shared l.mem v).2) (a := l.mem.length)
    (by omega) (some x)
  obtain ⟨m2, e2, l2, g2⟩ := setPrev_spec (m := m1) (a := l.mem.length) (by omega) (some q)
  obtain ⟨m3, e3, l3, g3⟩ := setNext_spec (m := m2) (a := q) (by omega) (some l.mem.length)
  obtain ⟨m4, e4, l4, g4⟩ := setPrev_spec (m := m3) (a := x) (by omega) (some l.mem.length)
  have hm : ∀ b, m4[b]? = if b = l.mem.length then some (Node.mk v (some x) (some q))
      else (l.mem[b]?).map (fun nd => Node.mk nd.data
        (if b = q then some l.mem.length else nd.next)
        (if b = x then some l.mem.length else nd.prev)) := by
    intro b
    rw [g4, g3, g2, g1, g0]
    by_cases c1 : b = l.mem.length
    · subst c1; simp [hxM.symm, hqM.symm]
    · by_cases c2 : b = x <;> by_cases c3 : b = q <;> (try subst c2) <;> (try subst c3) <;>
        cases hb : l.mem[b]? <;> simp [*]
  refine ⟨CyclicList.mk m4 l.head (l.size_ + 1), ?_, ?_, by simp; omega, rfl⟩
  · simp only [CyclicList.insert, iterator.op_eq, end_, begin, hh, Option.some.injEq, hx0, decide_False,
      Bool.false_and, Bool.and_false, Bool.false_eq_true, if_false, make_shared_fst, r0, bind_ok,
      e1, e2, e3, e4]
  · refine ⟨by simp [hs]; omega, ?_, hL.splice (by omega) (Nat.le_of_lt hlt) v
      (by rw [if_neg (by omega)]; exact hx) hpr hm⟩
    rw [getElem?_insertAt _ _ _ _ (Nat.le_of_lt hlt), if_pos (by omega), hh]; exact h0.symm

theorem Ring.lookup {l : CyclicList α} {ns : List Nat} {vs : List α} (h : Ring l ns vs)
    {k a : Nat} (hk : ns[k]? = some a) :
    ∃ v, vs[k]? = some v ∧
      l.mem[a]? = some (Node.mk v ns[succIdx ns.length k]? ns[predIdx ns.length k]?) :=
  h.2.2.node hk

theorem op_deref_at {l : CyclicList α} {ns : List Nat} {vs : List α} (h : Ring l ns vs)
    {k a : Nat} {w : α} (hk : ns[k]? = some a) (hw : vs[k]? = some w) (hd : Ptr) (f : Bool) :
    iterator.op_deref l.mem (iterator.mk (some a) hd f) = .ok w := by
  obtain ⟨v, hv, hn⟩ := h.lookup hk
  rw [hw] at hv
  simp only [iterator.op_deref, load_of_get hn]
  rw [Option.some.inj hv]

theorem op_inc_at {l : CyclicList α} {ns : List Nat} {vs : List α} (h : Ring l ns vs)
    {k a : Nat} (hk : ns[k]? = some a) (f : Bool) :
    iterator.op_inc l.mem (iterator.mk (some a) l.head f) =
      .ok (iterator.mk ns[succIdx ns.length k]? l.head (if k + 1 = ns.length then true else f)) := by
  obtain ⟨v, hv, hn⟩ := h.lookup hk
  have hlt : k < ns.length := (List.getElem?_eq_some.mp hk).1
  obtain ⟨s, hs⟩ := exists_get _ _ (succIdx_lt hlt)
  obtain ⟨p0, h0⟩ := exists_get ns 0 (by omega)
  have hc : (ns[succIdx ns.length k]? = l.head) ↔ k + 1 = ns.length := by
    rw [h.2.1, hs, h0, Option.some.injEq, idx_inj h.2.2.2.1 hs h0]
    unfold succIdx; split <;> omega
  simp only [iterator.op_inc, load_of_get hn, hc]

theorem advance_begin {l : CyclicList α} {ns : List Nat} {vs : List α} (h : Ring l ns vs)
    {k : Nat} (hk : k < ns.length) :
    iterator.advance l.mem k l.begin = .ok (iterator.mk ns[k]? l.head false) := by
  have key : ∀ d j, j + d < ns.length →
      iterator.advance l.mem d (iterator.mk ns[j]? l.head false) =
        .ok (iterator.mk ns[j + d]? l.head false) := by
    intro d
    induction d with
    | zero => intro j _; rfl
    | succ d ih =>
      intro j hj
      obtain ⟨a, ha⟩ := exists_get ns j (by omega)
      have hs : succIdx ns.length j = j + 1 := by unfold succIdx; split <;> omega
      have hi := op_inc_at h ha false
      rw [hs, if_neg (by omega)] at hi
      rw [ha]
      simp only [iterator.advance, hi]
      rw [ih (j + 1) (by omega)]
      congr 3; omega
  have := key k 0 (by omega)
  rw [Nat.zero_add, ← h.2.1] at this
  exact this

theorem advance_begin_end {l : CyclicList α} {ns : List Nat} {vs : List α} (h : Ring l ns vs)
    (hne : 0 < ns.length) :
    iterator.advance l.mem ns.length l.begin = .ok l.end_ := by
  have key : ∀ d j, j + d = ns.length → 0 < d →
      iterator.advance l.mem d (iterator.mk ns[j]? l.head false) = .ok l.end_ := by
    intro d
    induction d with
    | zero => intro j _ hd; omega
    | succ d ih =>
      intro j hj _
      obtain ⟨a, ha⟩ := exists_get ns j (by omega)
      have hi := op_inc_at h ha false
      rw [ha]
      simp only [iterator.advance, hi]
      by_cases hd : d = 0
      · subst hd
        have hs : succIdx ns.length j = 0 := by unfold succIdx; split <;> omega
        rw [hs, if_pos (by omega), ← h.2.1]
        rfl
      · have hs : succIdx ns.length j = j + 1 := by unfold succIdx; split <;> omega
        rw [hs, if_neg (by omega)]
        exact ih (j + 1) (by omega) (by omega)
  have := key ns.length 0 (by omega) hne
  rw [← h.2.1] at this
  exact this

theorem traverse_from {l : CyclicList α} {ns : List Nat} {vs : List α} (h : Ring l ns vs) :
    ∀ d k fuel, k + d = ns.length → 0 < d → d < fuel →
      traverse l fuel (iterator.mk ns[k]? l.head false) = some (.ok (vs.drop k)) := by
  intro d
  induction d with
  | zero => intro k fuel _ hd; omega
  | succ d ih =>
    intro k fuel hk _ hf
    obtain ⟨a, ha⟩ := exists_get ns k (by omega)
    obtain ⟨w, hw⟩ := exists_get vs k (by rw [h.2.2.1]; omega)
    obtain ⟨fuel, rfl⟩ : ∃ f, fuel = f + 1 := ⟨fuel - 1, by omega⟩
    have hi := op_inc_at h ha false
    have hdr := op_deref_at h ha hw l.head false
    have hdrop : vs.drop k = w :: vs.drop (k + 1) := by
      obtain ⟨hlt, e⟩ := List.getElem?_eq_some.mp hw
      rw [← e]; exact List.drop_eq_getElem_cons hlt
    rw [ha]
    simp only [CyclicList.traverse, iterator.op_ne, iterator.op_eq, end_, Bool.false_eq_true,
      decide_False, Bool.and_false, Bool.not_false, if_true, hdr, hi]
    by_cases hd : d = 0
    · subst hd
      have hs : succIdx ns.length k = 0 := by unfold succIdx; split <;> omega
      obtain ⟨fuel, rfl⟩ : ∃ f, fuel = f + 1 := ⟨fuel - 1, by omega⟩
      rw [hs, if_pos (by omega), ← h.2.1]
      have hnil : vs.drop (k + 1) = [] := List.drop_of_length_le (by rw [h.2.2.1]; omega)
      simp [CyclicList.traverse, iterator.op_ne, iterator.op_eq, end_, hdrop, hnil]
      rfl
    · have hs : succIdx ns.length k = k + 1 := by unfold succIdx; split <;> omega
      rw [hs, if_neg (by omega), ih (k + 1) fuel (by omega) (by omega) (by omega), hdrop]
      rfl

/-- On a non-empty well-formed ring the loop from `begin()` to `end()` visits the values in
order and stops. -/
theorem traverse_ring {l : CyclicList α} {ns : List Nat} {vs : List α} (h : Ring l ns vs)
    (hne : vs ≠ []) (fuel : Nat) (hf : vs.length < fuel) :
    traverse l fuel l.begin = some (.ok vs) := by
  have hpos : 0 < ns.length := by
    rw [← h.2.2.1]; exact List.length_pos.mpr hne
  have := traverse_from h ns.length 0 fuel (by omega) hpos (by rw [← h.2.2.1]; exact hf)
  rw [← h.2.1] at this
  exact this

theorem ctor_ring : Ring (ctor : CyclicList α) [] [] :=
  ⟨rfl, rfl, Linked.nil _⟩

theorem foldl_push_back_ring (xs : List α) :
    ∀ (l : CyclicList α) (ns : List Nat) (vs : List α), Ring l ns vs →
      ∃ l1 ns1, xs.foldl (fun (acc : Except (Fault α) (CyclicList α)) item =>
          acc.bind fun c => c.push_back item) (.ok l) = .ok l1 ∧
        Ring l1 ns1 (vs ++ xs) := by
  induction xs with
  | nil => intro l ns vs h; exact ⟨l, ns, rfl, by simpa using h⟩
  | cons x xs ih =>
    intro l ns vs h
    obtain ⟨l1, e1, h1, _, _⟩ := push_back_ring h x
    obtain ⟨l2, ns2, e2, h2⟩ := ih l1 _ _ h1
    refine ⟨l2, ns2, ?_, by simpa using h2⟩
    simp only [List.foldl_cons, bind_ok, e1]
    exact e2

theorem ctor_init_ring (xs : List α) : ∃ l ns, ctor_init xs = .ok l ∧ Ring l ns xs := by
  obtain ⟨l, ns, e, h⟩ := foldl_push_back_ring xs ctor [] [] ctor_ring
  exact ⟨l, ns, e, by simpa using h⟩

theorem Ring.size_eq {l : CyclicList α} {ns : List Nat} {vs : List α} (h : Ring l ns vs) :
    l.size = vs.length := by
  rw [h.2.2.1]; exact h.1

theorem insert_at {l : CyclicList α} {ns : List Nat} {vs : List α} (h : Ring l ns vs)
    {i : Nat} (hi : i < ns.length) (v : α) :
    ∃ l1, CyclicList.insert l (iterator.mk ns[i]? l.head false) v =
        .ok (l1, iterator.mk (some l.mem.length) l1.head false) ∧
      Ring l1 (ns.take i ++ l.mem.length :: ns.drop i) (vs.take i ++ v :: vs.drop i) := by
  by_cases h0 : i = 0
  · subst h0
    obtain ⟨l1, e, hr, _, hh⟩ := push_front_ring h v
    refine ⟨l1, ?_, by simpa using hr⟩
    simp only [CyclicList.insert, iterator.op_eq, begin, h.2.1, decide_True, Bool.and_self,
      if_true, e, bind_ok, hh]
  · obtain ⟨x, hx⟩ := exists_get _ _ hi
    obtain ⟨l1, e, hr, _, hh⟩ := insert_mid h (by omega) hx l.head v
    refine ⟨l1, ?_, hr⟩
    rw [hx, e, hh]

theorem erase_at {l : CyclicList α} {ns : List Nat} {vs : List α} (h : Ring l ns vs)
    {i : Nat} (hi : i < ns.length) :
    ∃ l1, CyclicList.erase l (iterator.mk ns[i]? l.head false) =
        .ok (l1, iterator.mk (ns.eraseIdx i)[if i + 1 = ns.length then 0 else i]? l1.head false) ∧
      Ring l1 (ns.eraseIdx i) (vs.eraseIdx i) := by
  have hemp : l.empty = false := by
    rw [h.empty_eq]; exact decide_eq_false (by omega)
  by_cases h0 : i = 0
  · subst h0
    obtain ⟨l1, e, hr, _, hh⟩ := pop_front_ring h hi
    refine ⟨l1, ?_, hr⟩
    have hc : (ns.eraseIdx 0)[if 0 + 1 = ns.length then 0 else 0]? = l1.head := by
      rw [hh, ite_self, List.getElem?_eraseIdx, if_neg (by omega)]
    simp only [CyclicList.erase, hemp, iterator.op_eq, begin, end_, h.2.1, decide_True,
      Bool.true_and, Bool.and_true, Bool.and_false, Bool.false_eq_true, decide_False, if_true,
      if_false, e, bind_ok, hc]
  · obtain ⟨x, hx⟩ := exists_get _ _ hi
    obtain ⟨l1, e, hr, _, hh⟩ := erase_mid h (by omega) hx l.head
    refine ⟨l1, ?_, hr⟩
    have hc : (ns.eraseIdx i)[if i + 1 = ns.length then 0 else i]? = ns[succIdx ns.length i]? := by
      rw [List.getElem?_eraseIdx]; unfold succIdx
      split <;> split <;> first | (with_reducible rfl) | omega | (congr 1 <;> omega)
    rw [hx, e, hh, hc]

theorem eraseIdx_insertAt {β : Type} (xs : List β) (i : Nat) (x : β) (hi : i ≤ xs.length) :
    (xs.take i ++ x :: xs.drop i).eraseIdx i = xs := by
  have h1 : (xs.take i).length = i := by simp [hi]
  rw [List.eraseIdx_append_of_length_le (Nat.le_of_eq h1), h1, Nat.sub_self]
  simp

theorem front_ring {l : CyclicList α} {ns : List Nat} {vs : List α} (h : Ring l ns vs)
    {w : α} (hw : vs[0]? = some w) : front l = .ok w := by
  have hpos : 0 < ns.length := by
    rw [← h.2.2.1]; exact (List.getElem?_eq_some.mp hw).1
  obtain ⟨a, ha⟩ := exists_get _ _ hpos
  obtain ⟨v, hv, hn⟩ := h.lookup ha
  have hemp : l.empty = false := by
    rw [h.empty_eq]; exact decide_eq_false (by omega)
  rw [hw] at hv
  simp only [front, hemp, Bool.false_eq_true, if_false, h.2.1, ha, load_of_get hn]
  rw [Option.some.inj hv]

theorem back_ring {l : CyclicList α} {ns : List Nat} {vs : List α} (h : Ring l ns vs)
    {w : α} (hw : vs[vs.length - 1]? = some w) : back l = .ok w := by
  have hpos : 0 < ns.length := by
    have := (List.getElem?_eq_some.mp hw).1
    rw [← h.2.2.1]; omega
  obtain ⟨a, ha⟩ := exists_get _ _ hpos
  obtain ⟨v, hv, hn⟩ := h.lookup ha
  obtain ⟨q, hq⟩ := exists_get _ _ (predIdx_lt hpos)
  obtain ⟨vq, hvq, hnq⟩ := h.lookup hq
  have hemp : l.empty = false := by
    rw [h.empty_eq]; exact decide_eq_false (by omega)
  have hidx : predIdx ns.length 0 = vs.length - 1 := by
    rw [h.2.2.1]; simp [predIdx]
  rw [hidx, hw] at hvq
  rw [hq] at hn
  simp only [back, hemp, Bool.false_eq_true, if_false, h.2.1, ha, load_of_get hn,
    load_of_get hnq]
  rw [Option.some.inj hvq]

/-- A container built from a non-empty initializer list is a well-formed ring of that size,
and the loop from `begin()` to `end()` visits exactly the listed values in order. -/
theorem traverse_ctor_init (xs : List α) (hne : xs ≠ []) :
    ∃ l, ctor_init xs = .ok l ∧ l.size = xs.length ∧
      ∀ fuel, xs.length < fuel → traverse l fuel l.begin = some (.ok xs) ∧
        traverse l fuel l.cbegin = some (.ok xs) := by
  obtain ⟨l, ns, e, h⟩ := ctor_init_ring xs
  exact ⟨l, e, h.size_eq, fun fuel hf => ⟨traverse_ring h hne fuel hf, traverse_ring h hne fuel hf⟩⟩

theorem advance_null (m : List (Node α)) (hd : Ptr) (f : Bool) (k : Nat) :
    iterator.advance m k (iterator.mk none hd f) = .ok (iterator.mk none hd f) := by
  induction k with
  | zero => rfl
  | succ k ih => simp only [iterator.advance, iterator.op_inc]; exact ih

/-- C1 (at the empty sequence): the container built from no elements has `size() == 0`, but
`begin()` differs from `end()` and stays different however often it is advanced, so the loop
from `begin()` to `end()` does not stop: its first step dereferences the null cursor. The same
holds for the read-only cursors. -/
theorem C1_empty_traversal_dereferences_null (fuel : Nat) :
    ctor_init ([] : List α) = .ok ctor ∧ (@ctor α).size = 0 ∧
      (@ctor α).begin.op_eq (@ctor α).end_ = false ∧
      iterator.advance (@ctor α).mem fuel (@ctor α).begin = .ok (@ctor α).begin ∧
      traverse (@ctor α) (fuel + 1) (@ctor α).begin = some (.error .undefined) ∧
      traverse (@ctor α) (fuel + 1) (@ctor α).cbegin = some (.error .undefined) :=
  ⟨rfl, rfl, rfl, advance_null _ _ _ _, rfl, rfl⟩

/-- C2 (at the container `{1, 2}`): `back()` is 2, but retreating `end()` once only clears the
boundary flag, so `*(--end())` is the first element 1, which is `front()` and `*begin()`. -/
theorem C2_dec_end_is_front_not_back :
    ∃ l : CyclicList Nat, ctor_init [1, 2] = .ok l ∧ l.back = .ok 2 ∧
      ((l.end_.op_dec l.mem).bind fun it => it.op_deref l.mem) = .ok 1 ∧
      l.front = .ok 1 ∧ l.begin.op_deref l.mem = .ok 1 :=
  ⟨CyclicList.mk [Node.mk 1 (some 1) (some 1), Node.mk 2 (some 0) (some 0)] (some 0) 2,
    by decide, by decide, by decide, by decide, by decide⟩

/-- C3: on a well-formed ring with values `vs`, inserting `v` at the cursor reached by advancing
`begin()` `i` times (`i < length vs`) succeeds; afterwards the ring carries
`vs[0..i) ++ [v] ++ vs[i..]` (also as seen by the `begin()`-to-`end()` loop), `size()` is
`length vs + 1`, and the cursor returned dereferences to `v` and is the cursor reached by
advancing the new `begin()` `i` times. -/
theorem C3_insert_at_index {l : CyclicList α} {ns : List Nat} {vs : List α}
    (h : Ring l ns vs) (i : Nat) (hi : i < vs.length) (v : α) :
    ∃ pos l1 r ns1, iterator.advance l.mem i l.begin = .ok pos ∧
      CyclicList.insert l pos v = .ok (l1, r) ∧
      Ring l1 ns1 (vs.take i ++ v :: vs.drop i) ∧
      l1.size = vs.length + 1 ∧
      r.op_deref l1.mem = .ok v ∧
      iterator.advance l1.mem i l1.begin = .ok r ∧
      ∀ fuel, vs.length + 1 < fuel →
        traverse l1 fuel l1.begin = some (.ok (vs.take i ++ v :: vs.drop i)) := by
  have hin : i < ns.length := by rw [← h.2.2.1]; exact hi
  obtain ⟨l1, e, hr⟩ := insert_at h hin v
  have hget : (ns.take i ++ l.mem.length :: ns.drop i)[i]? = some l.mem.length := by
    rw [getElem?_insertAt _ _ _ _ (Nat.le_of_lt hin)]; simp
  have hgetv : (vs.take i ++ v :: vs.drop i)[i]? = some v := by
    rw [getElem?_insertAt _ _ _ _ (Nat.le_of_lt hi)]; simp
  have hlen : (vs.take i ++ v :: vs.drop i).length = vs.length + 1 := by
    simp; omega
  refine ⟨_, l1, _, _, advance_begin h hin, e, hr, ?_, ?_, ?_, ?_⟩
  · rw [hr.size_eq, hlen]
  · exact op_deref_at hr hget hgetv _ _
  · have := advance_begin hr (k := i) (by rw [← hr.2.2.1, hlen]; omega)
    rw [hget] at this
    exact this
  · intro fuel hf
    exact traverse_ring hr (by simp) fuel (by rw [hlen]; exact hf)

/-- C4: on a well-formed ring with values `vs`, erasing at the cursor reached by advancing
`begin()` `i` times (`i < length vs`) succeeds; afterwards the ring carries `vs` without its
element at index `i`, `size()` is `length vs - 1` (erasing the sole element leaves `empty()`
true and `size()` 0), when `i + 1 < length vs` the cursor returned dereferences to
`vs[i+1]`, and when an element is left the `begin()`-to-`end()` loop visits exactly the
remaining values. -/
theorem C4_erase_at_index {l : CyclicList α} {ns : List Nat} {vs : List α}
    (h : Ring l ns vs) (i : Nat) (hi : i < vs.length) :
    ∃ pos l1 r ns1, iterator.advance l.mem i l.begin = .ok pos ∧
      CyclicList.erase l pos = .ok (l1, r) ∧
      Ring l1 ns1 (vs.eraseIdx i) ∧
      l1.size = vs.length - 1 ∧
      (vs.length = 1 → l1.empty = true ∧ l1.size = 0) ∧
      (∀ w, vs[i + 1]? = some w → r.op_deref l1.mem = .ok w) ∧
      (1 < vs.length → ∀ fuel, vs.length - 1 < fuel →
        traverse l1 fuel l1.begin = some (.ok (vs.eraseIdx i))) := by
  have hin : i < ns.length := by rw [← h.2.2.1]; exact hi
  obtain ⟨l1, e, hr⟩ := erase_at h hin
  have hlen : (vs.eraseIdx i).length = vs.length - 1 := by
    rw [List.length_eraseIdx, if_pos hi]
  have hsz : l1.size = vs.length - 1 := by rw [hr.size_eq, hlen]
  refine ⟨_, l1, _, _, advance_begin h hin, e, hr, hsz, ?_, ?_, ?_⟩
  · intro h1
    have h0 : l1.size_ = 0 := by
      have := hsz; unfold size at this; omega
    exact ⟨by simp [empty, h0], h0⟩
  · intro w hw
    have hlt : i + 1 < vs.length := (List.getElem?_eq_some.mp hw).1
    have hlt2 : i + 1 < ns.length := by rw [← h.2.2.1]; exact hlt
    rw [if_neg (by omega)]
    obtain ⟨a, ha⟩ := exists_get (ns.eraseIdx i) i (by
      rw [List.length_eraseIdx, if_pos hin]; omega)
    have hv : (vs.eraseIdx i)[i]? = some w := by
      rw [List.getElem?_eraseIdx, if_neg (by omega)]; exact hw
    rw [ha]
    exact op_deref_at hr ha hv _ _
  · intro h1 fuel hf
    exact traverse_ring hr (List.ne_nil_of_length_pos (by rw [hlen]; omega)) fuel
      (by rw [hlen]; exact hf)

/-- C6: on a well-formed ring, inserting a value at the cursor of any element (first, interior
or last) and then erasing at the cursor that `insert` returned succeeds and gives back the
ring as it was: same nodes in the same order, same values, same `size()`, same `head`, and
the same `begin()`-to-`end()` traversal. -/
theorem C6_insert_then_erase {l : CyclicList α} {ns : List Nat} {vs : List α}
    (h : Ring l ns vs) (i : Nat) (hi : i < vs.length) (v : α) :
    ∃ pos l1 r l2 r2, iterator.advance l.mem i l.begin = .ok pos ∧
      CyclicList.insert l pos v = .ok (l1, r) ∧
      CyclicList.erase l1 r = .ok (l2, r2) ∧
      Ring l2 ns vs ∧ l2.size = l.size ∧ l2.head = l.head ∧
      ∀ fuel, vs.length < fuel →
        traverse l2 fuel l2.begin = some (.ok vs) ∧ traverse l fuel l.begin = some (.ok vs) := by
  have hin : i < ns.length := by rw [← h.2.2.1]; exact hi
  have hne : vs ≠ [] := List.ne_nil_of_length_pos (by omega)
  obtain ⟨l1, e1, hr1⟩ := insert_at h hin v
  have hget : (ns.take i ++ l.mem.length :: ns.drop i)[i]? = some l.mem.length := by
    rw [getElem?_insertAt _ _ _ _ (Nat.le_of_lt hin)]; simp
  have hin1 : i < (ns.take i ++ l.mem.length :: ns.drop i).length := by
    simp; omega
  obtain ⟨l2, e2, hr2⟩ := erase_at hr1 hin1
  rw [hget, eraseIdx_insertAt _ _ _ (Nat.le_of_lt hin)] at e2
  rw [eraseIdx_insertAt _ _ _ (Nat.le_of_lt hin), eraseIdx_insertAt _ _ _ (Nat.le_of_lt hi)]
    at hr2
  refine ⟨_, l1, _, l2, _, advance_begin h hin, e1, e2, hr2, ?_, ?_, ?_⟩
  · rw [hr2.size_eq, h.size_eq]
  · rw [hr2.2.1, h.2.1]
  · intro fuel hf
    exact ⟨traverse_ring hr2 hne fuel hf, traverse_ring h hne fuel hf⟩

theorem sample13_built : ctor_init [1, 3] = .ok sample13 := by decide

theorem sample123_built : ctor_init [1, 2, 3] = .ok sample123 := by decide

theorem sample1_built : ctor_init [1] = .ok sample1 := by decide

/-- Witness of C3: the test `Insert`, inserting 2 before the second element of `{1, 3}`. -/
theorem C3_insert_at_index_witness :
    Ring sample13 [0, 1] [1, 3] ∧ 1 < ([1, 3] : List Nat).length ∧
    ∃ pos l1 r ns1, iterator.advance sample13.mem 1 sample13.begin = .ok pos ∧
      CyclicList.insert sample13 pos 2 = .ok (l1, r) ∧
      Ring l1 ns1 (([1, 3] : List Nat).take 1 ++ 2 :: ([1, 3] : List Nat).drop 1) ∧
      l1.size = ([1, 3] : List Nat).length + 1 ∧
      r.op_deref l1.mem = .ok 2 ∧
      iterator.advance l1.mem 1 l1.begin = .ok r ∧
      ∀ fuel, ([1, 3] : List Nat).length + 1 < fuel →
        traverse l1 fuel l1.begin =
          some (.ok (([1, 3] : List Nat).take 1 ++ 2 :: ([1, 3] : List Nat).drop 1)) :=
  ⟨by decide, by decide,
    C3_insert_at_index (by decide : Ring sample13 [0, 1] [1, 3]) 1 (by decide) 2⟩

/-- Witness of C4: the test `Erase`, erasing the second element of `{1, 2, 3}`. -/
theorem C4_erase_at_index_witness :
    Ring sample123 [0, 1, 2] [1, 2, 3] ∧ 1 < ([1, 2, 3] : List Nat).length ∧
    ∃ pos l1 r ns1, iterator.advance sample123.mem 1 sample123.begin = .ok pos ∧
      CyclicList.erase sample123 pos = .ok (l1, r) ∧
      Ring l1 ns1 (([1, 2, 3] : List Nat).eraseIdx 1) ∧
      l1.size = ([1, 2, 3] : List Nat).length - 1 ∧
      (([1, 2, 3] : List Nat).length = 1 → l1.empty = true ∧ l1.size = 0) ∧
      (∀ w, ([1, 2, 3] : List Nat)[1 + 1]? = some w → r.op_deref l1.mem = .ok w) ∧
      (1 < ([1, 2, 3] : List Nat).length → ∀ fuel, ([1, 2, 3] : List Nat).length - 1 < fuel →
        traverse l1 fuel l1.begin = some (.ok (([1, 2, 3] : List Nat).eraseIdx 1))) :=
  ⟨by decide, by decide,
    C4_erase_at_index (by decide : Ring sample123 [0, 1, 2] [1, 2, 3]) 1 (by decide)⟩

/-- Witness of C6: inserting 9 before the last element of `{1, 2, 3}` and erasing it again. -/
theorem C6_insert_then_erase_witness :
    Ring sample123 [0, 1, 2] [1, 2, 3] ∧ 2 < ([1, 2, 3] : List Nat).length ∧
    ∃ pos l1 r l2 r2, iterator.advance sample123.mem 2 sample123.begin = .ok pos ∧
      CyclicList.insert sample123 pos 9 = .ok (l1, r) ∧
      CyclicList.erase l1 r = .ok (l2, r2) ∧
      Ring l2 [0, 1, 2] [1, 2, 3] ∧ l2.size = sample123.size ∧ l2.head = sample123.head ∧
      ∀ fuel, ([1, 2, 3] : List Nat).length < fuel →
        traverse l2 fuel l2.begin = some (.ok [1, 2, 3]) ∧
          traverse sample123 fuel sample123.begin = some (.ok [1, 2, 3]) :=
  ⟨by decide, by decide,
    C6_insert_then_erase (by decide : Ring sample123 [0, 1, 2] [1, 2, 3]) 2 (by decide) 9⟩

/-- C5 (at the container `{1}`, inserting 2 at `end()`): the container afterwards is the one
`push_back(2)` gives, but the cursor returned is `--end()`, which is `begin()`: it
dereferences to the first element 1, not to the inserted 2, and advancing it once gives the
cursor of the inserted element, which differs from `end()`. -/
theorem C5_insert_at_end_returns_begin :
    ∃ l1 r r1, CyclicList.insert sample1 sample1.end_ 2 = .ok (l1, r) ∧
      sample1.push_back 2 = .ok l1 ∧ l1.size = 2 ∧
      r = l1.begin ∧ r.op_deref l1.mem = .ok 1 ∧
      r.op_inc l1.mem = .ok r1 ∧ r1.op_deref l1.mem = .ok 2 ∧ r1.op_eq l1.end_ = false :=
  ⟨CyclicList.mk [Node.mk 1 (some 1) (some 1), Node.mk 2 (some 0) (some 0)] (some 0) 2,
    iterator.mk (some 0) (some 0) false, iterator.mk (some 1) (some 0) false,
    by decide, by decide, by decide, by decide, by decide, by decide, by decide, by decide⟩

/-- On every non-empty well-formed ring `insert(end(), v)` does what `push_back(v)` does and
returns `begin()` of the container afterwards. -/
theorem insert_end_ring {l : CyclicList α} {ns : List Nat} {vs : List α} (h : Ring l ns vs)
    (hne : 0 < ns.length) (v : α) :
    ∃ l1, CyclicList.insert l l.end_ v = .ok (l1, l1.begin) ∧ l.push_back v = .ok l1 ∧
      Ring l1 (ns ++ [l.mem.length]) (vs ++ [v]) := by
  obtain ⟨l1, e, hr, _, hh⟩ := push_back_ring h v
  obtain ⟨a, ha⟩ := exists_get _ _ hne
  have hh1 : l1.head = some a := by
    rw [hh, List.getElem?_append_left hne]; exact ha
  refine ⟨l1, ?_, e, hr⟩
  simp [CyclicList.insert, iterator.op_eq, begin, end_, e, bind_ok, iterator.op_dec, hh1]

theorem load_ne_out_of_range (m : List (Node α)) (p : Ptr) (st : CyclicList α) :
    load m p ≠ .error (.out_of_range st) := by
  unfold load
  split
  · intro hc; cases hc
  · split <;> intro hc <;> cases hc

theorem store_ne_out_of_range (m : List (Node α)) (p : Ptr) (f : Node α → Node α)
    (st : CyclicList α) : store m p f ≠ .error (.out_of_range st) := by
  unfold store
  split
  · intro hc; cases hc
  · split <;> intro hc <;> cases hc

theorem bind_ne_out_of_range {β γ : Type} {x : Except (Fault α) β} {f : β → Except (Fault α) γ}
    {st : CyclicList α} (hx : x ≠ .error (.out_of_range st))
    (hf : ∀ a, f a ≠ .error (.out_of_range st)) : x.bind f ≠ .error (.out_of_range st) := by
  cases x with
  | error e =>
    intro hc
    apply hx
    simp only [Except.bind, Except.error.injEq] at hc
    rw [hc]
  | ok a => exact hf a

theorem setNext_ne_out_of_range (m : List (Node α)) (p x : Ptr) (st : CyclicList α) :
    setNext m p x ≠ .error (.out_of_range st) :=
  store_ne_out_of_range _ _ _ _

theorem setPrev_ne_out_of_range (m : List (Node α)) (p x : Ptr) (st : CyclicList α) :
    setPrev m p x ≠ .error (.out_of_range st) :=
  store_ne_out_of_range _ _ _ _

/-- C7: each of `front()`, `back()`, `pop_front()` and `pop_back()` raises `out_of_range`
exactly when the container is empty, and the container the exception leaves behind is the
container the call was made on. -/
theorem C7_out_of_range_iff_empty (l st : CyclicList α) :
    (l.front = .error (.out_of_range st) ↔ l.empty = true ∧ st = l) ∧
    (l.back = .error (.out_of_range st) ↔ l.empty = true ∧ st = l) ∧
    (l.pop_front = .error (.out_of_range st) ↔ l.empty = true ∧ st = l) ∧
    (l.pop_back = .error (.out_of_range st) ↔ l.empty = true ∧ st = l) := by
  have key : ∀ {β : Type} (x : Except (Fault α) β), x ≠ .error (.out_of_range st) →
      ((if l.empty then (.error (.out_of_range l) : Except (Fault α) β) else x) =
        .error (.out_of_range st) ↔ l.empty = true ∧ st = l) := by
    intro β x hx
    cases he : l.empty with
    | true =>
      simp only [if_true, Except.error.injEq, Fault.out_of_range.injEq, true_and]
      exact eq_comm
    | false =>
      simp only [Bool.false_eq_true, if_false, false_and, iff_false]
      exact hx
  refine ⟨?_, ?_, ?_, ?_⟩
  · unfold front
    apply key
    split
    · rename_i e he
      intro hc
      injection hc with hc
      rw [hc] at he
      exact load_ne_out_of_range _ _ _ he
    · intro hc; cases hc
  · unfold back
    apply key
    split
    · rename_i e he
      intro hc
      injection hc with hc
      rw [hc] at he
      exact load_ne_out_of_range _ _ _ he
    · split
      · rename_i e he
        intro hc
        injection hc with hc
        rw [hc] at he
        exact load_ne_out_of_range _ _ _ he
      · intro hc; cases hc
  · unfold pop_front
    apply key
    split
    · intro hc; cases hc
    · refine bind_ne_out_of_range (load_ne_out_of_range _ _ _) (fun h0 => ?_)
      refine bind_ne_out_of_range (load_ne_out_of_range _ _ _) (fun o1 => ?_)
      refine bind_ne_out_of_range (setPrev_ne_out_of_range _ _ _ _) (fun m1 => ?_)
      refine bind_ne_out_of_range (load_ne_out_of_range _ _ _) (fun o2 => ?_)
      refine bind_ne_out_of_range (setNext_ne_out_of_range _ _ _ _) (fun m2 => ?_)
      intro hc; cases hc
  · unfold pop_back
    apply key
    split
    · intro hc; cases hc
    · refine bind_ne_out_of_range (load_ne_out_of_range _ _ _) (fun h0 => ?_)
      refine bind_ne_out_of_range (load_ne_out_of_range _ _ _) (fun t1 => ?_)
      refine bind_ne_out_of_range (setNext_ne_out_of_range _ _ _ _) (fun m1 => ?_)
      refine bind_ne_out_of_range (load_ne_out_of_range _ _ _) (fun t2 => ?_)
      refine bind_ne_out_of_range (setPrev_ne_out_of_range _ _ _ _) (fun m2 => ?_)
      intro hc; cases hc

/-- C8 as stated fails: on the default-constructed container `erase(end())` raises
`out_of_range`; it does not return a cursor. -/
theorem C8_erase_end_on_empty_raises :
    CyclicList.erase (@ctor Nat) (@ctor Nat).end_ = .error (.out_of_range ctor) ∧
      ¬ ∃ l1 r, CyclicList.erase (@ctor Nat) (@ctor Nat).end_ = .ok (l1, r) := by
  refine ⟨rfl, ?_⟩
  rintro ⟨l1, r, hc⟩
  have h : CyclicList.erase (@ctor Nat) (@ctor Nat).end_ = .error (.out_of_range ctor) := rfl
  rw [h] at hc
  cases hc

/-- C8 amended: on an empty container `erase` raises `out_of_range` whatever the cursor, in
particular for `end()`, and the container the exception leaves behind is unchanged. -/
theorem C8_erase_on_empty (l : CyclicList α) (pos : iterator) (h : l.empty = true) :
    CyclicList.erase l pos = .error (.out_of_range l) ∧
      CyclicList.erase l l.end_ = .error (.out_of_range l) := by
  simp only [CyclicList.erase, h, if_true, and_self]

/-- Witness of C8 amended: the default-constructed container. -/
theorem C8_erase_on_empty_witness :
    (@ctor Nat).empty = true ∧
      (CyclicList.erase (@ctor Nat) (@ctor Nat).end_ = .error (.out_of_range ctor) ∧
        CyclicList.erase (@ctor Nat) (@ctor Nat).end_ = .error (.out_of_range ctor)) :=
  ⟨rfl, C8_erase_on_empty ctor ctor.end_ rfl⟩

theorem eq_loop_from [DecidableEq α] {a b : CyclicList α} {nsa nsb : List Nat} {vsa vsb : List α}
    (ha : Ring a nsa vsa) (hb : Ring b nsb vsb) (hlen : nsa.length = nsb.length) :
    ∀ d k fuel, k + d = nsa.length → 0 < d → d < fuel →
      eq_loop a b fuel (iterator.mk nsa[k]? a.head false) (iterator.mk nsb[k]? b.head false) =
        some (.ok (decide (vsa.drop k = vsb.drop k))) := by
  intro d
  induction d with
  | zero => intro k fuel _ hd; omega
  | succ d ih =>
    intro k fuel hk _ hf
    obtain ⟨xa, hxa⟩ := exists_get nsa k (by omega)
    obtain ⟨xb, hxb⟩ := exists_get nsb k (by omega)
    obtain ⟨wa, hwa⟩ := exists_get vsa k (by rw [ha.2.2.1]; omega)
    obtain ⟨wb, hwb⟩ := exists_get vsb k (by rw [hb.2.2.1]; omega)
    obtain ⟨fuel, rfl⟩ : ∃ f, fuel = f + 1 := ⟨fuel - 1, by omega⟩
    have hia := op_inc_at ha hxa false
    have hib := op_inc_at hb hxb false
    have hda := op_deref_at ha hxa hwa a.head false
    have hdb := op_deref_at hb hxb hwb b.head false
    have hdropa : vsa.drop k = wa :: vsa.drop (k + 1) := by
      obtain ⟨hlt, e⟩ := List.getElem?_eq_some.mp hwa
      rw [← e]; exact List.drop_eq_getElem_cons hlt
    have hdropb : vsb.drop k = wb :: vsb.drop (k + 1) := by
      obtain ⟨hlt, e⟩ := List.getElem?_eq_some.mp hwb
      rw [← e]; exact List.drop_eq_getElem_cons hlt
    rw [hxa, hxb, hdropa, hdropb]
    simp only [eq_loop, iterator.op_ne, iterator.op_eq, cend, Bool.false_eq_true,
      decide_False, Bool.and_false, Bool.not_false, Bool.and_self, if_true, hda, hdb, hia, hib]
    by_cases hw : wa = wb
    · subst hw
      simp only [ne_eq, not_true_eq_false, if_false, List.cons.injEq, true_and]
      by_cases hd : d = 0
      · subst hd
        have hsa : succIdx nsa.length k = 0 := by unfold succIdx; split <;> omega
        have hsb : succIdx nsb.length k = 0 := by unfold succIdx; split <;> omega
        obtain ⟨fuel, rfl⟩ : ∃ f, fuel = f + 1 := ⟨fuel - 1, by omega⟩
        have hna : vsa.drop (k + 1) = [] := List.drop_of_length_le (by rw [ha.2.2.1]; omega)
        have hnb : vsb.drop (k + 1) = [] := List.drop_of_length_le (by rw [hb.2.2.1]; omega)
        rw [hsa, hsb, if_pos (by omega), if_pos (by omega), ← ha.2.1, ← hb.2.1, hna, hnb]
        simp [eq_loop, iterator.op_ne, iterator.op_eq, cend]
      · have hsa : succIdx nsa.length k = k + 1 := by unfold succIdx; split <;> omega
        have hsb : succIdx nsb.length k = k + 1 := by unfold succIdx; split <;> omega
        rw [hsa, hsb, if_neg (by omega), if_neg (by omega)]
        exact ih (k + 1) fuel (by omega) (by omega) (by omega)
    · simp [hw]

/-- C9: for two well-formed rings that are not both empty, `a == b` returns, and it returns
true exactly when the sizes are equal and the values agree position by position; `a != b`
returns the negation. -/
theorem C9_op_eq_iff_same_sequence [DecidableEq α] {a b : CyclicList α} {nsa nsb : List Nat}
    {vsa vsb : List α} (ha : Ring a nsa vsa) (hb : Ring b nsb vsb)
    (hne : ¬ (vsa = [] ∧ vsb = [])) (fuel : Nat) (hf : vsa.length < fuel) :
    CyclicList.op_eq fuel a b = some (.ok (decide (a.size = b.size ∧ vsa = vsb))) ∧
      CyclicList.op_ne fuel a b = some (.ok (!decide (a.size = b.size ∧ vsa = vsb))) := by
  have key : CyclicList.op_eq fuel a b = some (.ok (decide (a.size = b.size ∧ vsa = vsb))) := by
    unfold CyclicList.op_eq
    by_cases hs : a.size_ = b.size_
    · have hlen : nsa.length = nsb.length := by rw [← ha.1, ← hb.1]; exact hs
      have hpos : 0 < nsa.length := by
        rcases Nat.eq_zero_or_pos nsa.length with h0 | h0
        · exfalso; apply hne
          exact ⟨List.length_eq_zero.mp (by rw [ha.2.2.1]; exact h0),
            List.length_eq_zero.mp (by rw [hb.2.2.1, ← hlen]; exact h0)⟩
        · exact h0
      have := eq_loop_from ha hb hlen nsa.length 0 fuel (by omega) hpos
        (by rw [← ha.2.2.1]; exact hf)
      rw [← ha.2.1, ← hb.2.1] at this
      rw [if_neg (by simpa using hs)]
      simp only [cbegin, this, List.drop_zero, size, hs, true_and]
    · rw [if_pos hs]
      simp [size, hs]
  refine ⟨key, ?_⟩
  unfold CyclicList.op_ne
  rw [key]
  rfl

/-- Witness of C9: the test `Equality`, comparing `{1, 2, 3}` with itself. -/
theorem C9_op_eq_iff_same_sequence_witness :
    Ring sample123 [0, 1, 2] [1, 2, 3] ∧ ¬ (([1, 2, 3] : List Nat) = [] ∧ ([1, 2, 3] : List Nat) = []) ∧
      ([1, 2, 3] : List Nat).length < 4 ∧
      (CyclicList.op_eq 4 sample123 sample123 =
          some (.ok (decide (sample123.size = sample123.size ∧ ([1, 2, 3] : List Nat) = [1, 2, 3]))) ∧
        CyclicList.op_ne 4 sample123 sample123 =
          some (.ok (!decide (sample123.size = sample123.size ∧ ([1, 2, 3] : List Nat) = [1, 2, 3])))) :=
  ⟨by decide, by decide, by decide,
    C9_op_eq_iff_same_sequence (by decide : Ring sample123 [0, 1, 2] [1, 2, 3])
      (by decide : Ring sample123 [0, 1, 2] [1, 2, 3]) (by decide) 4 (by decide)⟩

/-- C10 (at two default-constructed containers, and at a container emptied by `pop_front`):
the sizes agree, `begin()` differs from `end()` on both sides, so the loop of `operator==`
is entered and its first step dereferences the null cursor; the comparison does not give
true. -/
theorem C10_op_eq_on_empty_dereferences_null [DecidableEq α] (fuel : Nat) :
    CyclicList.op_eq (fuel + 1) (@ctor α) (@ctor α) = some (.error .undefined) ∧
      ∃ l1, sample1.pop_front = .ok l1 ∧ l1.empty = true ∧
        CyclicList.op_eq (fuel + 1) l1 ctor = some (.error .undefined) :=
  ⟨rfl, CyclicList.mk [Node.mk 1 (some 0) (some 0)] none 0, rfl, rfl, rfl⟩

/-- C11: two cursors compare equal exactly when they reference the same current node and
carry the same boundary flag (and `!=` is the negation); so on every container `begin()` and
`end()` both reference the entry node `head` and still compare unequal, in particular on the
single-element container `{1}`, where both reference node 0. -/
theorem C11_cursor_equality (it other : iterator) (l : CyclicList α) :
    (it.op_eq other = true ↔ it.current = other.current ∧ it.is_end = other.is_end) ∧
      it.op_ne other = !it.op_eq other ∧
      l.begin.current = l.head ∧ l.end_.current = l.head ∧
      l.begin.op_eq l.end_ = false ∧ l.begin.op_ne l.end_ = true ∧
      sample1.begin.current = some 0 ∧ sample1.end_.current = some 0 ∧
      sample1.begin.op_ne sample1.end_ = true := by
  refine ⟨?_, rfl, rfl, rfl, ?_, ?_, rfl, rfl, rfl⟩
  · simp [iterator.op_eq]
  · simp [iterator.op_eq, begin, end_]
  · simp [iterator.op_ne, iterator.op_eq, begin, end_]

theorem Ring.head_eq {l : CyclicList α} {ns : List Nat} {vs : List α} (h : Ring l ns vs) :
    l.head = ns[0]? := h.2.1

theorem Ring.length_eq {l : CyclicList α} {ns : List Nat} {vs : List α} (h : Ring l ns vs) :
    vs.length = ns.length := h.2.2.1

/-- C13: on a well-formed ring with values `f :: rest`, `push_front(v)` succeeds; afterwards
the ring and the `begin()`-to-`end()` loop carry `v :: f :: rest`, `front()` is `v`, `size()`
has grown by one, and the cursor one `++` after `begin()` dereferences to `f`. -/
theorem C13_push_front {l : CyclicList α} {ns : List Nat} {f : α} {rest : List α}
    (h : Ring l ns (f :: rest)) (v : α) :
    ∃ l1 ns1 it, l.push_front v = .ok l1 ∧ Ring l1 ns1 (v :: f :: rest) ∧
      l1.front = .ok v ∧ l1.size = l.size + 1 ∧
      iterator.advance l1.mem 1 l1.begin = .ok it ∧ it.op_deref l1.mem = .ok f ∧
      ∀ fuel, (f :: rest).length + 1 < fuel →
        traverse l1 fuel l1.begin = some (.ok (v :: f :: rest)) := by
  obtain ⟨l1, e, hr, _, _⟩ := push_front_ring h v
  have hn : ns.length = rest.length + 1 := by rw [← h.length_eq]; rfl
  obtain ⟨a, ha⟩ := exists_get (l.mem.length :: ns) 1 (by simp; omega)
  refine ⟨l1, _, _, e, hr, front_ring hr (by simp), ?_, advance_begin hr (by simp; omega), ?_, ?_⟩
  · rw [hr.size_eq, h.size_eq]; rfl
  · rw [ha]; exact op_deref_at hr ha (by simp) _ _
  · intro fuel hf
    exact traverse_ring hr (by simp) fuel (by simpa using hf)

/-- Witness of C13: `push_front(0)` on `{1, 2, 3}`. -/
theorem C13_push_front_witness :
    Ring sample123 [0, 1, 2] (1 :: [2, 3]) ∧
    ∃ l1 ns1 it, sample123.push_front 0 = .ok l1 ∧ Ring l1 ns1 (0 :: 1 :: [2, 3]) ∧
      l1.front = .ok 0 ∧ l1.size = sample123.size + 1 ∧
      iterator.advance l1.mem 1 l1.begin = .ok it ∧ it.op_deref l1.mem = .ok 1 ∧
      ∀ fuel, ((1 : Nat) :: [2, 3]).length + 1 < fuel →
        traverse l1 fuel l1.begin = some (.ok (0 :: 1 :: [2, 3])) :=
  ⟨by decide, C13_push_front (by decide : Ring sample123 [0, 1, 2] (1 :: [2, 3])) 0⟩

/-- C14: on a well-formed ring with values `x :: xs`, `pop_front()` succeeds; afterwards the
ring carries `xs` and `size()` is one less; when `xs` is not empty the `begin()`-to-`end()`
loop visits `xs`, `front()` is the head of `xs` and `back()` is what it was. -/
theorem C14_pop_front {l : CyclicList α} {ns : List Nat} {x : α} {xs : List α}
    (h : Ring l ns (x :: xs)) :
    ∃ l1 ns1, l.pop_front = .ok l1 ∧ Ring l1 ns1 xs ∧ l1.size + 1 = l.size ∧
      (∀ y ys, xs = y :: ys → l1.front = .ok y ∧ l1.back = l.back ∧
        ∀ fuel, xs.length < fuel → traverse l1 fuel l1.begin = some (.ok xs)) := by
  have hn : ns.length = xs.length + 1 := by rw [← h.length_eq]; rfl
  obtain ⟨l1, e, hr, _, _⟩ := pop_front_ring h (by omega)
  rw [List.eraseIdx_cons_zero] at hr
  refine ⟨l1, _, e, hr, ?_, ?_⟩
  · rw [hr.size_eq, h.size_eq]; rfl
  · intro y ys hxs
    subst hxs
    obtain ⟨w, hw⟩ := exists_get (y :: ys) ((y :: ys).length - 1) (by simp)
    have hw2 : (x :: y :: ys)[(x :: y :: ys).length - 1]? = some w := by
      simpa using hw
    refine ⟨front_ring hr (by simp), ?_, fun fuel hf => traverse_ring hr (by simp) fuel hf⟩
    rw [back_ring hr hw, back_ring h hw2]

/-- Witness of C14: the test `PopFront`, `pop_front()` on `{1, 2, 3}`. -/
theorem C14_pop_front_witness :
    Ring sample123 [0, 1, 2] (1 :: [2, 3]) ∧
    ∃ l1 ns1, sample123.pop_front = .ok l1 ∧ Ring l1 ns1 [2, 3] ∧
      l1.size + 1 = sample123.size ∧
      (∀ y ys, ([2, 3] : List Nat) = y :: ys → l1.front = .ok y ∧ l1.back = sample123.back ∧
        ∀ fuel, ([2, 3] : List Nat).length < fuel →
          traverse l1 fuel l1.begin = some (.ok [2, 3])) :=
  ⟨by decide, C14_pop_front (by decide : Ring sample123 [0, 1, 2] (1 :: [2, 3]))⟩

theorem eraseIdx_append_singleton {β : Type} (xs : List β) (x : β) (n : Nat)
    (hn : n = xs.length) : (xs ++ [x]).eraseIdx n = xs := by
  subst hn
  rw [List.eraseIdx_append_of_length_le (Nat.le_refl _), Nat.sub_self]
  simp

/-- C15: on a well-formed ring with values `xs ++ [x]`, `pop_back()` succeeds; afterwards the
ring carries `xs` and `size()` is one less; when `xs` is not empty `head` and `front()` are
what they were, `back()` is the last element of `xs`, and the `begin()`-to-`end()` loop
visits `xs`. -/
theorem C15_pop_back {l : CyclicList α} {ns : List Nat} {x : α} {xs : List α}
    (h : Ring l ns (xs ++ [x])) :
    ∃ l1 ns1, l.pop_back = .ok l1 ∧ Ring l1 ns1 xs ∧ l1.size + 1 = l.size ∧
      (∀ y, xs.getLast? = some y → l1.head = l.head ∧ l1.front = l.front ∧
        l1.back = .ok y ∧
        ∀ fuel, xs.length < fuel → traverse l1 fuel l1.begin = some (.ok xs)) := by
  have hn : ns.length = xs.length + 1 := by rw [← h.length_eq]; simp
  obtain ⟨l1, e, hr, _⟩ := pop_back_ring h (by omega)
  rw [eraseIdx_append_singleton xs x _ (by omega)] at hr
  refine ⟨l1, _, e, hr, ?_, ?_⟩
  · rw [hr.size_eq, h.size_eq]; simp
  · intro y hy
    have hne : xs ≠ [] := by
      intro hc; rw [hc] at hy; simp at hy
    have hpos : 0 < xs.length := List.length_pos.mpr hne
    obtain ⟨w, hw⟩ := exists_get xs 0 hpos
    have hw2 : (xs ++ [x])[0]? = some w := by
      rw [List.getElem?_append_left hpos]; exact hw
    have hy2 : xs[xs.length - 1]? = some y := by
      rw [List.getLast?_eq_getElem?] at hy; exact hy
    refine ⟨?_, ?_, back_ring hr hy2, fun fuel hf => traverse_ring hr hne fuel hf⟩
    · rw [hr.head_eq, h.head_eq, List.getElem?_eraseIdx, if_pos (by omega)]
    · rw [front_ring hr hw, front_ring h hw2]

/-- Witness of C15: the test `PopBack`, `pop_back()` on `{1, 2, 3}`. -/
theorem C15_pop_back_witness :
    Ring sample123 [0, 1, 2] ([1, 2] ++ [3]) ∧
    ∃ l1 ns1, sample123.pop_back = .ok l1 ∧ Ring l1 ns1 [1, 2] ∧
      l1.size + 1 = sample123.size ∧
      (∀ y, ([1, 2] : List Nat).getLast? = some y → l1.head = sample123.head ∧
        l1.front = sample123.front ∧ l1.back = .ok y ∧
        ∀ fuel, ([1, 2] : List Nat).length < fuel →
          traverse l1 fuel l1.begin = some (.ok [1, 2])) :=
  ⟨by decide, C15_pop_back (by decide : Ring sample123 [0, 1, 2] ([1, 2] ++ [3]))⟩

/-- C16: on a well-formed ring with front element `f`, `pop_front()` followed by
`push_front(f)` succeeds and gives a ring with the original values in the original order:
`front()`, `size()` and the `begin()`-to-`end()` traversal are what they were. -/
theorem C16_pop_front_push_front {l : CyclicList α} {ns : List Nat} {f : α} {xs : List α}
    (h : Ring l ns (f :: xs)) :
    ∃ l1 l2 ns2, l.pop_front = .ok l1 ∧ l1.push_front f = .ok l2 ∧ Ring l2 ns2 (f :: xs) ∧
      l.front = .ok f ∧ l2.front = .ok f ∧ l2.size = l.size ∧
      ∀ fuel, (f :: xs).length < fuel →
        traverse l2 fuel l2.begin = some (.ok (f :: xs)) ∧
          traverse l fuel l.begin = some (.ok (f :: xs)) := by
  have hn : ns.length = xs.length + 1 := by rw [← h.length_eq]; rfl
  obtain ⟨l1, e1, hr1, _, _⟩ := pop_front_ring h (by omega)
  rw [List.eraseIdx_cons_zero] at hr1
  obtain ⟨l2, e2, hr2, _, _⟩ := push_front_ring hr1 f
  refine ⟨l1, l2, _, e1, e2, hr2, front_ring h (by simp), front_ring hr2 (by simp), ?_, ?_⟩
  · rw [hr2.size_eq, h.size_eq]
  · intro fuel hf
    exact ⟨traverse_ring hr2 (by simp) fuel hf, traverse_ring h (by simp) fuel hf⟩

/-- Witness of C16: `pop_front()` then `push_front(1)` on `{1, 2, 3}`. -/
theorem C16_pop_front_push_front_witness :
    Ring sample123 [0, 1, 2] (1 :: [2, 3]) ∧
    ∃ l1 l2 ns2, sample123.pop_front = .ok l1 ∧ l1.push_front 1 = .ok l2 ∧
      Ring l2 ns2 (1 :: [2, 3]) ∧
      sample123.front = .ok 1 ∧ l2.front = .ok 1 ∧ l2.size = sample123.size ∧
      ∀ fuel, ((1 : Nat) :: [2, 3]).length < fuel →
        traverse l2 fuel l2.begin = some (.ok (1 :: [2, 3])) ∧
          traverse sample123 fuel sample123.begin = some (.ok (1 :: [2, 3])) :=
  ⟨by decide, C16_pop_front_push_front (by decide : Ring sample123 [0, 1, 2] (1 :: [2, 3]))⟩

/-- C18: on every non-empty container `erase(end())` raises nothing, returns the cursor it was
given, which is equal to `end()`, and leaves the whole container as it was (so `size()`, the
links and the traversal are unchanged). -/
theorem C18_erase_end_noop (l : CyclicList α) (h : l.empty = false) :
    CyclicList.erase l l.end_ = .ok (l, l.end_) ∧ l.end_.op_eq l.end_ = true := by
  simp [CyclicList.erase, h, iterator.op_eq]

/-- Witness of C18: `erase(end())` on `{1, 2, 3}`. -/
theorem C18_erase_end_noop_witness :
    sample123.empty = false ∧
      (CyclicList.erase sample123 sample123.end_ = .ok (sample123, sample123.end_) ∧
        sample123.end_.op_eq sample123.end_ = true) :=
  ⟨rfl, C18_erase_end_noop sample123 rfl⟩

/-- C20 as stated fails: on `{1, 2, 3}` advancing `end()` once gives the cursor of the second
element, 2, with the boundary flag still set; it is not equal to `begin()`. -/
theorem C20_inc_end_is_not_begin :
    iterator.op_inc sample123.mem sample123.end_ = .ok (iterator.mk (some 1) (some 0) true) ∧
      (iterator.mk (some 1) (some 0) true).op_deref sample123.mem = .ok 2 ∧
      (iterator.mk (some 1) (some 0) true).op_eq sample123.begin = false ∧
      ¬ iterator.op_inc sample123.mem sample123.end_ = .ok sample123.begin := by
  decide

/-- C20 amended: on a non-empty well-formed ring advancing `end()` once steps from the entry
node to its successor (the second element; the entry node itself when there is one element)
and keeps the boundary flag set, so the cursor obtained is not equal to `begin()`. -/
theorem C20_inc_end {l : CyclicList α} {ns : List Nat} {vs : List α} (h : Ring l ns vs)
    (hne : vs ≠ []) :
    ∃ it, iterator.op_inc l.mem l.end_ = .ok it ∧
      it = iterator.mk ns[succIdx ns.length 0]? l.head true ∧
      it.op_eq l.begin = false ∧
      ∀ w, vs[succIdx ns.length 0]? = some w → it.op_deref l.mem = .ok w := by
  have hpos : 0 < ns.length := by
    rw [← h.length_eq]; exact List.length_pos.mpr hne
  obtain ⟨a, ha⟩ := exists_get ns 0 hpos
  have hi := op_inc_at h ha true
  have he : l.end_ = iterator.mk (some a) l.head true := by
    simp [end_, h.head_eq, ha]
  obtain ⟨s, hs⟩ := exists_get ns (succIdx ns.length 0) (succIdx_lt hpos)
  refine ⟨_, by rw [he]; exact hi, by simp, by simp [iterator.op_eq, begin], ?_⟩
  intro w hw
  simp only [ite_self]
  rw [hs]
  exact op_deref_at h hs hw _ _

/-- Witness of C20 amended: advancing `end()` of `{1, 2, 3}`. -/
theorem C20_inc_end_witness :
    Ring sample123 [0, 1, 2] [1, 2, 3] ∧ ([1, 2, 3] : List Nat) ≠ [] ∧
    ∃ it, iterator.op_inc sample123.mem sample123.end_ = .ok it ∧
      it = iterator.mk ([0, 1, 2] : List Nat)[succIdx ([0, 1, 2] : List Nat).length 0]?
        sample123.head true ∧
      it.op_eq sample123.begin = false ∧
      ∀ w, ([1, 2, 3] : List Nat)[succIdx ([0, 1, 2] : List Nat).length 0]? = some w →
        it.op_deref sample123.mem = .ok w :=
  ⟨by decide, by decide,
    C20_inc_end (by decide : Ring sample123 [0, 1, 2] [1, 2, 3]) (by decide)⟩

theorem Ring.nil_size {l : CyclicList α} (h : Ring l [] ([] : List α)) :
    l.empty = true ∧ l.size = 0 ∧ l.head = none := by
  refine ⟨?_, h.1, h.2.1⟩
  rw [h.empty_eq]; rfl

theorem clear_ring : ∀ (n : Nat) (l : CyclicList α) (ns : List Nat) (vs : List α),
    Ring l ns vs → ns.length = n →
      (∀ fuel, n < fuel → ∃ l1, clear fuel l = some (.ok l1) ∧ Ring l1 [] ([] : List α) ∧
        Nat.iterate (fun s : Except (Fault α) (CyclicList α) => s.bind pop_front) n (.ok l) =
          .ok l1) ∧
      ∀ fuel, fuel ≤ n → clear fuel l = none := by
  intro n
  induction n with
  | zero =>
    intro l ns vs h hn
    have hns : ns = [] := List.length_eq_zero.mp hn
    have hvs : vs = [] := List.length_eq_zero.mp (by rw [h.2.2.1, hn])
    subst hns hvs
    refine ⟨fun fuel hf => ?_, fun fuel hf => ?_⟩
    · obtain ⟨fuel, rfl⟩ : ∃ f, fuel = f + 1 := ⟨fuel - 1, by omega⟩
      refine ⟨l, ?_, h, rfl⟩
      simp [clear, h.nil_size.1]
    · have : fuel = 0 := by omega
      subst this; rfl
  | succ n ih =>
    intro l ns vs h hn
    have hemp : l.empty = false := by
      rw [h.empty_eq]; exact decide_eq_false (by omega)
    obtain ⟨l1, e, hr, _, _⟩ := pop_front_ring h (by omega)
    have hn1 : (ns.eraseIdx 0).length = n := by
      rw [List.length_eraseIdx, if_pos (by omega)]; omega
    obtain ⟨ih1, ih2⟩ := ih l1 _ _ hr hn1
    refine ⟨fun fuel hf => ?_, fun fuel hf => ?_⟩
    · obtain ⟨fuel, rfl⟩ : ∃ f, fuel = f + 1 := ⟨fuel - 1, by omega⟩
      obtain ⟨l2, e2, hr2, hit⟩ := ih1 fuel (by omega)
      refine ⟨l2, ?_, hr2, ?_⟩
      · simp only [clear, hemp, Bool.not_false, if_true, e]
        exact e2
      · rw [Function.iterate_succ_apply, bind_ok, e]
        exact hit
    · cases fuel with
      | zero => rfl
      | succ fuel =>
        simp only [clear, hemp, Bool.not_false, if_true, e]
        exact ih2 fuel (by omega)

/-- C17: on a well-formed ring of size `n`, `clear()` returns without an error once its loop
has had `n + 1` rounds (`n` calls of `pop_front()` and the final test) and not before; the
container it leaves is the one `n` calls of `pop_front()` leave, and it is empty: `empty()`
is true, `size()` is 0 and `head` is null. -/
theorem C17_clear {l : CyclicList α} {ns : List Nat} {vs : List α} (h : Ring l ns vs) :
    (∀ fuel, l.size < fuel → ∃ l1, clear fuel l = some (.ok l1) ∧
      Nat.iterate (fun s : Except (Fault α) (CyclicList α) => s.bind pop_front) l.size
        (.ok l) = .ok l1 ∧
      l1.empty = true ∧ l1.size = 0 ∧ l1.head = none) ∧
    ∀ fuel, fuel ≤ l.size → clear fuel l = none := by
  have hsz : l.size = ns.length := h.1
  obtain ⟨h1, h2⟩ := clear_ring ns.length l ns vs h rfl
  rw [hsz]
  refine ⟨fun fuel hf => ?_, h2⟩
  obtain ⟨l1, e, hr, hit⟩ := h1 fuel hf
  exact ⟨l1, e, hit, hr.nil_size⟩

/-- Witness of C17: the test `Clear`, `clear()` on `{1, 2, 3}`. -/
theorem C17_clear_witness :
    Ring sample123 [0, 1, 2] [1, 2, 3] ∧
    ((∀ fuel, sample123.size < fuel → ∃ l1, clear fuel sample123 = some (.ok l1) ∧
      Nat.iterate (fun s : Except (Fault Nat) (CyclicList Nat) => s.bind pop_front)
        sample123.size (.ok sample123) = .ok l1 ∧
      l1.empty = true ∧ l1.size = 0 ∧ l1.head = none) ∧
    ∀ fuel, fuel ≤ sample123.size → clear fuel sample123 = none) :=
  ⟨by decide, C17_clear (by decide : Ring sample123 [0, 1, 2] [1, 2, 3])⟩

theorem insert_end_empty {l : CyclicList α} (h : Ring l [] ([] : List α)) (v : α) :
    ∃ l1 r, CyclicList.insert l l.end_ v = .ok (l1, r) ∧ l.push_back v = .ok l1 ∧
      Ring l1 [l.mem.length] [v] := by
  obtain ⟨l1, e, hr, _, hh⟩ := push_back_ring h v
  have hh1 : l1.head = some l.mem.length := by rw [hh]; rfl
  refine ⟨l1, iterator.mk (some l.mem.length) (some l.mem.length) false, ?_, e, hr⟩
  simp [CyclicList.insert, iterator.op_eq, begin, end_, e, bind_ok, iterator.op_dec, hh1]

/-- Every admissible call on a well-formed ring leaves a well-formed ring: it returns, or it
raises `out_of_range` and leaves the container as it was; it never runs into undefined
behaviour. -/
theorem perform_ring {l : CyclicList α} {ns : List Nat} {vs : List α} (h : Ring l ns vs)
    (c : Call α) (hc : c.admissible l = true) :
    ∃ l1 ns1 vs1, after (perform l c) = some l1 ∧ Ring l1 ns1 vs1 := by
  cases c with
  | push_front v =>
    obtain ⟨l1, e, hr, _, _⟩ := push_front_ring h v
    exact ⟨l1, _, _, by simp [perform, e, after], hr⟩
  | push_back v =>
    obtain ⟨l1, e, hr, _, _⟩ := push_back_ring h v
    exact ⟨l1, _, _, by simp [perform, e, after], hr⟩
  | pop_front =>
    by_cases hn : ns.length = 0
    · have he : l.empty = true := by rw [h.empty_eq]; exact decide_eq_true hn
      exact ⟨l, ns, vs, by simp [perform, CyclicList.pop_front, he, after], h⟩
    · obtain ⟨l1, e, hr, _, _⟩ := pop_front_ring h (by omega)
      exact ⟨l1, _, _, by simp [perform, e, after], hr⟩
  | pop_back =>
    by_cases hn : ns.length = 0
    · have he : l.empty = true := by rw [h.empty_eq]; exact decide_eq_true hn
      exact ⟨l, ns, vs, by simp [perform, CyclicList.pop_back, he, after], h⟩
    · obtain ⟨l1, e, hr, _⟩ := pop_back_ring h (by omega)
      exact ⟨l1, _, _, by simp [perform, e, after], hr⟩
  | clear =>
    obtain ⟨h1, _⟩ := clear_ring ns.length l ns vs h rfl
    obtain ⟨l1, e, hr, _⟩ := h1 (l.size_ + 1) (by rw [h.1]; omega)
    exact ⟨l1, _, _, by simp [perform, e, after], hr⟩
  | insert pos v =>
    cases pos with
    | none =>
      by_cases hn : ns.length = 0
      · have hns : ns = [] := List.length_eq_zero.mp hn
        have hvs : vs = [] := List.length_eq_zero.mp (by rw [h.2.2.1, hn])
        subst hns hvs
        obtain ⟨l1, r, e, _, hr⟩ := insert_end_empty h v
        exact ⟨l1, _, _, by simp [perform, cursor, e, bind_ok, after], hr⟩
      · obtain ⟨l1, e, _, hr⟩ := insert_end_ring h (by omega) v
        exact ⟨l1, _, _, by simp [perform, cursor, e, bind_ok, after], hr⟩
    | some k =>
      have hk : k < ns.length := by
        simp only [Call.admissible, denotes, decide_eq_true_eq] at hc
        rw [← h.1]; exact hc
      obtain ⟨l1, e, hr⟩ := insert_at h hk v
      exact ⟨l1, _, _, by simp [perform, cursor, advance_begin h hk, e, bind_ok, after], hr⟩
  | erase pos =>
    cases pos with
    | none =>
      by_cases hn : ns.length = 0
      · have he : l.empty = true := by rw [h.empty_eq]; exact decide_eq_true hn
        exact ⟨l, ns, vs, by
          simp [perform, cursor, CyclicList.erase, he, bind_ok, Except.bind, after], h⟩
      · have he : l.empty = false := by rw [h.empty_eq]; exact decide_eq_false hn
        exact ⟨l, ns, vs, by
          simp [perform, cursor, CyclicList.erase, he, iterator.op_eq, bind_ok, after], h⟩
    | some k =>
      have hk : k < ns.length := by
        simp only [Call.admissible, denotes, decide_eq_true_eq] at hc
        rw [← h.1]; exact hc
      obtain ⟨l1, e, hr⟩ := erase_at h hk
      exact ⟨l1, _, _, by simp [perform, cursor, advance_begin h hk, e, bind_ok, after], hr⟩

/-- Every container a sequence of admissible calls reaches from a well-formed ring is a
well-formed ring. -/
theorem run_ring (calls : List (Call α)) :
    ∀ (l : CyclicList α) (ns : List Nat) (vs : List α) (l1 : CyclicList α),
      Ring l ns vs → run calls l = some l1 → ∃ ns1 vs1, Ring l1 ns1 vs1 := by
  induction calls with
  | nil =>
    intro l ns vs l1 h e
    simp only [run, Option.some.injEq] at e
    subst e
    exact ⟨ns, vs, h⟩
  | cons c cs ih =>
    intro l ns vs l1 h e
    simp only [run] at e
    by_cases hc : c.admissible l = true
    · obtain ⟨l2, ns2, vs2, e2, hr2⟩ := perform_ring h c hc
      rw [if_pos hc, e2] at e
      exact ih l2 ns2 vs2 l1 hr2 e
    · rw [if_neg hc] at e
      cases e

/-- A sequence of calls on a well-formed ring is carried out to its end unless one of the
calls is handed a cursor that denotes neither an element nor `end()`. -/
theorem run_defined (calls : List (Call α)) :
    ∀ (l : CyclicList α) (ns : List Nat) (vs : List α), Ring l ns vs →
      run calls l = none → ∃ pre c post l1, calls = pre ++ c :: post ∧
        run pre l = some l1 ∧ c.admissible l1 = false := by
  induction calls with
  | nil => intro l ns vs h e; cases e
  | cons c cs ih =>
    intro l ns vs h e
    simp only [run] at e
    by_cases hc : c.admissible l = true
    · obtain ⟨l2, ns2, vs2, e2, hr2⟩ := perform_ring h c hc
      rw [if_pos hc, e2] at e
      obtain ⟨pre, c1, post, l1, e3, e4, e5⟩ := ih l2 ns2 vs2 hr2 e
      refine ⟨c :: pre, c1, post, l1, by rw [e3]; rfl, ?_, e5⟩
      simp only [run, if_pos hc, e2]
      exact e4
    · exact ⟨[], c, cs, l, rfl, rfl, by simpa using hc⟩

theorem next_of_at {l : CyclicList α} {ns : List Nat} {vs : List α} (h : Ring l ns vs)
    {k : Nat} (hk : k < ns.length) :
    next_of l.mem ns[k]? = ns[succIdx ns.length k]? := by
  obtain ⟨a, ha⟩ := exists_get ns k hk
  obtain ⟨v, _, hn⟩ := h.lookup ha
  simp [next_of, ha, hn]

theorem prev_of_at {l : CyclicList α} {ns : List Nat} {vs : List α} (h : Ring l ns vs)
    {k : Nat} (hk : k < ns.length) :
    prev_of l.mem ns[k]? = ns[predIdx ns.length k]? := by
  obtain ⟨a, ha⟩ := exists_get ns k hk
  obtain ⟨v, _, hn⟩ := h.lookup ha
  simp [prev_of, ha, hn]

theorem follow_lt {l : CyclicList α} {ns : List Nat} {vs : List α} (h : Ring l ns vs) :
    ∀ j k, k + j < ns.length → follow l.mem j ns[k]? = ns[k + j]? := by
  intro j
  induction j with
  | zero => intro k _; rfl
  | succ j ih =>
    intro k hk
    have hs : succIdx ns.length k = k + 1 := by unfold succIdx; split <;> omega
    rw [follow, next_of_at h (by omega), hs, ih (k + 1) (by omega)]
    congr 1; omega

theorem follow_wrap {l : CyclicList α} {ns : List Nat} {vs : List α} (h : Ring l ns vs) :
    ∀ j k, k + (j + 1) = ns.length → follow l.mem (j + 1) ns[k]? = ns[0]? := by
  intro j
  induction j with
  | zero =>
    intro k hk
    have hs : succIdx ns.length k = 0 := by unfold succIdx; split <;> omega
    rw [follow, next_of_at h (by omega), hs]; rfl
  | succ j ih =>
    intro k hk
    have hs : succIdx ns.length k = k + 1 := by unfold succIdx; split <;> omega
    rw [follow, next_of_at h (by omega), hs]
    exact ih (k + 1) (by omega)

/-- The ring invariant in terms of the links: what `Ring` says about `head`, `size_` and the
`next` / `prev` pointers. -/
theorem Ring.links {l : CyclicList α} {ns : List Nat} {vs : List α} (h : Ring l ns vs) :
    (l.size = 0 ↔ l.head = none) ∧
    (1 ≤ l.size → follow l.mem l.size l.head = l.head ∧
      ∀ j, 0 < j → j < l.size → follow l.mem j l.head ≠ l.head) ∧
    (∀ j, j < l.size → ∃ x, follow l.mem j l.head = some x ∧
      prev_of l.mem (next_of l.mem (some x)) = some x) := by
  have hsz : l.size = ns.length := h.1
  rw [hsz, h.head_eq]
  refine ⟨?_, ?_, ?_⟩
  · constructor
    · intro h0; exact List.getElem?_eq_none (by omega)
    · intro h0
      by_contra hc
      obtain ⟨a, ha⟩ := exists_get ns 0 (by omega)
      rw [ha] at h0; cases h0
  · intro h1
    constructor
    · obtain ⟨n, hn⟩ : ∃ n, ns.length = n + 1 := ⟨ns.length - 1, by omega⟩
      rw [hn]
      exact follow_wrap h n 0 (by omega)
    · intro j hj0 hj hc
      rw [follow_lt h j 0 (by omega), Nat.zero_add] at hc
      obtain ⟨a, ha⟩ := exists_get ns j hj
      obtain ⟨b, hb⟩ := exists_get ns 0 (by omega)
      rw [ha, hb, Option.some.injEq, idx_inj h.2.2.2.1 ha hb] at hc
      omega
  · intro j hj
    obtain ⟨x, hx⟩ := exists_get ns j hj
    refine ⟨x, ?_, ?_⟩
    · rw [follow_lt h j 0 (by omega), Nat.zero_add]; exact hx
    · have hps : predIdx ns.length (succIdx ns.length j) = j := by
        unfold predIdx succIdx; (repeat' split) <;> omega
      rw [← hx, next_of_at h hj, prev_of_at h (succIdx_lt hj), hps]

/-- C19: every container a sequence of `push_front`, `push_back`, `pop_front`, `pop_back`,
`clear`, `insert` and `erase` calls (cursors denoting an element or `end()`) reaches from the
default-constructed one satisfies the ring invariant: `size()` is 0 exactly when `head` is
null; when `size() >= 1`, following `next` from `head` exactly `size()` times comes back to
`head` and fewer steps (at least one) do not; and for every node `x` of the ring the `prev`
link of `x`'s `next` node is `x`. -/
theorem C19_ring_invariant (calls : List (Call α)) (l : CyclicList α)
    (h : run calls ctor = some l) :
    (l.size = 0 ↔ l.head = none) ∧
    (1 ≤ l.size → follow l.mem l.size l.head = l.head ∧
      ∀ j, 0 < j → j < l.size → follow l.mem j l.head ≠ l.head) ∧
    (∀ j, j < l.size → ∃ x, follow l.mem j l.head = some x ∧
      prev_of l.mem (next_of l.mem (some x)) = some x) := by
  obtain ⟨ns, vs, hr⟩ := run_ring calls ctor [] [] l ctor_ring h
  exact hr.links

/-- C12: every non-empty container a sequence of `push_front`, `push_back`, `pop_front`,
`pop_back`, `clear`, `insert` and `erase` calls reaches from the default-constructed one is a
well-formed ring whose `begin()`-to-`end()` loop visits its values in order, `front()` returns
the first of these values and `back()` the last. -/
theorem C12_front_back_after_calls (calls : List (Call α)) (l : CyclicList α)
    (h : run calls ctor = some l) (hne : l.empty = false) :
    ∃ ns vs w1 w2, Ring l ns vs ∧
      (∀ fuel, vs.length < fuel → traverse l fuel l.begin = some (.ok vs)) ∧
      vs.head? = some w1 ∧ vs.getLast? = some w2 ∧ l.front = .ok w1 ∧ l.back = .ok w2 := by
  obtain ⟨ns, vs, hr⟩ := run_ring calls ctor [] [] l ctor_ring h
  have hpos : 0 < vs.length := by
    rw [hr.empty_eq] at hne
    have := of_decide_eq_false hne
    rw [hr.length_eq]; omega
  have hvs : vs ≠ [] := List.ne_nil_of_length_pos hpos
  obtain ⟨w1, h1⟩ := exists_get vs 0 hpos
  obtain ⟨w2, h2⟩ := exists_get vs (vs.length - 1) (by omega)
  refine ⟨ns, vs, w1, w2, hr, fun fuel hf => traverse_ring hr hvs fuel hf, ?_, ?_,
    front_ring hr h1, back_ring hr h2⟩
  · rw [List.head?_eq_getElem?]; exact h1
  · rw [List.getLast?_eq_getElem?]; exact h2

/-- Witness of C12: the test `PushBack`, `push_back(1)` then `push_back(2)`. -/
theorem C12_front_back_after_calls_witness :
    run [Call.push_back 1, Call.push_back 2] ctor = some sample12 ∧ sample12.empty = false ∧
    ∃ ns vs w1 w2, Ring sample12 ns vs ∧
      (∀ fuel, vs.length < fuel → traverse sample12 fuel sample12.begin = some (.ok vs)) ∧
      vs.head? = some w1 ∧ vs.getLast? = some w2 ∧ sample12.front = .ok w1 ∧
      sample12.back = .ok w2 :=
  ⟨by decide, by decide,
    C12_front_back_after_calls [Call.push_back 1, Call.push_back 2] sample12 (by decide)
      (by decide)⟩

/-- The two scenarios of the tests `PushBack` and `PushFront`: after `push_back(1)`,
`push_back(2)` the front is 1 and the back is 2; after `push_front(1)`, `push_front(2)` the
front is 2 and the back is 1. -/
theorem front_back_examples :
    (∃ l, run [Call.push_back 1, Call.push_back 2] (@ctor Nat) = some l ∧
      l.front = .ok 1 ∧ l.back = .ok 2 ∧ l.size = 2) ∧
    (∃ l, run [Call.push_front 1, Call.push_front 2] (@ctor Nat) = some l ∧
      l.front = .ok 2 ∧ l.back = .ok 1 ∧ l.size = 2) :=
  ⟨⟨sample12, by decide, by decide, by decide, by decide⟩,
    ⟨CyclicList.mk [Node.mk 1 (some 1) (some 1), Node.mk 2 (some 0) (some 0)] (some 1) 2,
      by decide, by decide, by decide, by decide⟩⟩

/-- Witness of C19: a sequence that uses every kind of call but `clear`, ending in `{5, 7}`. -/
theorem C19_ring_invariant_witness :
    run sample_calls ctor = some sample_run ∧
    ((sample_run.size = 0 ↔ sample_run.head = none) ∧
    (1 ≤ sample_run.size → follow sample_run.mem sample_run.size sample_run.head =
        sample_run.head ∧
      ∀ j, 0 < j → j < sample_run.size →
        follow sample_run.mem j sample_run.head ≠ sample_run.head) ∧
    (∀ j, j < sample_run.size → ∃ x, follow sample_run.mem j sample_run.head = some x ∧
      prev_of sample_run.mem (next_of sample_run.mem (some x)) = some x)) :=
  ⟨by decide, C19_ring_invariant sample_calls sample_run (by decide)⟩

theorem Ring.head_none {l : CyclicList α} {ns : List Nat} {vs : List α} (h : Ring l ns vs)
    (he : l.empty = true) : l.head = none := by
  rw [h.empty_eq] at he
  have hn : ns.length = 0 := of_decide_eq_true he
  rw [h.head_eq]
  exact List.getElem?_eq_none (by omega)

/-- C21: on an empty well-formed container `begin()` and `end()` both have no current node and
compare unequal; advancing `begin()` any number of times gives `begin()` again, so it never
becomes equal to `end()`; and the loop from `begin()` to `end()` dereferences the cursor
without a current node in its first round. -/
theorem C21_empty_begin_never_end {l : CyclicList α} {ns : List Nat} {vs : List α}
    (h : Ring l ns vs) (he : l.empty = true) (k fuel : Nat) :
    l.begin.current = none ∧ l.end_.current = none ∧
      l.begin.op_eq l.end_ = false ∧
      iterator.advance l.mem k l.begin = .ok l.begin ∧
      l.begin.op_deref l.mem = .error .undefined ∧
      traverse l (fuel + 1) l.begin = some (.error .undefined) := by
  have hh := h.head_none he
  have hb : l.begin = iterator.mk none none false := by simp [begin, hh]
  have hd : iterator.op_deref l.mem (iterator.mk none none false) = .error .undefined := rfl
  refine ⟨hh, hh, by simp [iterator.op_eq, begin, end_], ?_, ?_, ?_⟩
  · rw [hb]; exact advance_null _ _ _ _
  · rw [hb]; exact hd
  · rw [hb]
    simp [CyclicList.traverse, iterator.op_ne, iterator.op_eq, end_, hd]

/-- Witness of C21: the default-constructed container, three `++` steps, a loop of five rounds. -/
theorem C21_empty_begin_never_end_witness :
    Ring (@ctor Nat) [] [] ∧ (@ctor Nat).empty = true ∧
    ((@ctor Nat).begin.current = none ∧ (@ctor Nat).end_.current = none ∧
      (@ctor Nat).begin.op_eq (@ctor Nat).end_ = false ∧
      iterator.advance (@ctor Nat).mem 3 (@ctor Nat).begin = .ok (@ctor Nat).begin ∧
      (@ctor Nat).begin.op_deref (@ctor Nat).mem = .error .undefined ∧
      traverse (@ctor Nat) (4 + 1) (@ctor Nat).begin = some (.error .undefined)) :=
  ⟨ctor_ring, rfl, C21_empty_begin_never_end ctor_ring rfl 3 4⟩

/-- C22: on a non-empty well-formed ring, erasing at the cursor of the last element (the sole
element when there is one) succeeds, leaves the ring without that element, and returns
`begin()` of the container afterwards: its current node is the entry node `head` and its
boundary flag is clear, so it is not equal to `end()`. With two or more elements `head` is
not null and stays what it was, so the cursor returned is on the old entry node and
dereferences to the first element; with one element the container is empty afterwards and
the cursor returned has no current node. -/
theorem C22_erase_last_returns_begin {l : CyclicList α} {ns : List Nat} {vs : List α}
    (h : Ring l ns vs) (hne : vs ≠ []) :
    ∃ pos l1 r ns1, iterator.advance l.mem (vs.length - 1) l.begin = .ok pos ∧
      (∀ w, vs[vs.length - 1]? = some w → pos.op_deref l.mem = .ok w) ∧
      CyclicList.erase l pos = .ok (l1, r) ∧
      Ring l1 ns1 (vs.eraseIdx (vs.length - 1)) ∧ l1.size + 1 = l.size ∧
      r = l1.begin ∧ r.current = l1.head ∧ r.is_end = false ∧
      r.op_eq l1.begin = true ∧ r.op_eq l1.end_ = false ∧
      (2 ≤ vs.length → (∃ a, l.head = some a) ∧ l1.head = l.head ∧
        r = iterator.mk l.head l.head false ∧ r.current = l.head ∧
        r = l.begin ∧ ∀ w, vs[0]? = some w → r.op_deref l1.mem = .ok w) ∧
      (vs.length = 1 → l1.empty = true ∧ l1.head = none ∧ r.current = none) := by
  have hpos : 0 < ns.length := by
    rw [← h.length_eq]; exact List.length_pos.mpr hne
  have hin : ns.length - 1 < ns.length := by omega
  obtain ⟨l1, e, hr⟩ := erase_at h hin
  rw [if_pos (by omega)] at e
  have hb : iterator.mk (ns.eraseIdx (ns.length - 1))[0]? l1.head false = l1.begin := by
    simp [begin, hr.head_eq]
  rw [hb] at e
  have hadv := advance_begin h hin
  obtain ⟨x, hx⟩ := exists_get ns (ns.length - 1) hin
  have hlen1 : (vs.eraseIdx (ns.length - 1)).length = ns.length - 1 := by
    rw [List.length_eraseIdx, if_pos (by rw [h.length_eq]; exact hin), h.length_eq]
  rw [← h.length_eq] at hadv e hr
  refine ⟨_, l1, _, _, hadv, ?_, e, hr, ?_, rfl, rfl, rfl, by simp [iterator.op_eq], ?_, ?_, ?_⟩
  · intro w hw
    rw [h.length_eq, hx]
    rw [h.length_eq] at hw
    exact op_deref_at h hx hw _ _
  · rw [hr.size_eq, h.size_eq, ← h.length_eq] at *
    rw [List.length_eraseIdx, if_pos (by omega)]
    have := List.length_pos.mpr hne
    omega
  · simp [iterator.op_eq, begin, end_]
  · intro h2
    obtain ⟨a, ha⟩ := exists_get ns 0 hpos
    have hh1 : l1.head = l.head := by
      rw [hr.head_eq, h.head_eq, h.length_eq, List.getElem?_eraseIdx,
        if_pos (by rw [← h.length_eq]; omega)]
    have hbeg : l1.begin = iterator.mk l.head l.head false := by
      simp [begin, hh1]
    refine ⟨⟨a, by rw [h.head_eq]; exact ha⟩, hh1, hbeg, by rw [hbeg], by rw [hbeg]; rfl, ?_⟩
    intro w hw
    have ha1 : (ns.eraseIdx (vs.length - 1))[0]? = some a := by
      rw [List.getElem?_eraseIdx, if_pos (by omega)]; exact ha
    have hw1 : (vs.eraseIdx (vs.length - 1))[0]? = some w := by
      rw [List.getElem?_eraseIdx, if_pos (by omega)]; exact hw
    rw [hbeg, h.head_eq, ha]
    exact op_deref_at hr ha1 hw1 _ _
  · intro h1
    have hlen : (ns.eraseIdx (vs.length - 1)).length = 0 := by
      rw [List.length_eraseIdx, if_pos (by rw [h.length_eq]; exact hin), ← h.length_eq]; omega
    have he : l1.empty = true := by rw [hr.empty_eq]; exact decide_eq_true hlen
    exact ⟨he, hr.head_none he, hr.head_none he⟩

/-- Witness of C22: erasing the last element of `{1, 2, 3}`. -/
theorem C22_erase_last_returns_begin_witness :
    Ring sample123 [0, 1, 2] [1, 2, 3] ∧ ([1, 2, 3] : List Nat) ≠ [] ∧
    ∃ pos l1 r ns1, iterator.advance sample123.mem (([1, 2, 3] : List Nat).length - 1)
        sample123.begin = .ok pos ∧
      (∀ w, ([1, 2, 3] : List Nat)[([1, 2, 3] : List Nat).length - 1]? = some w →
        pos.op_deref sample123.mem = .ok w) ∧
      CyclicList.erase sample123 pos = .ok (l1, r) ∧
      Ring l1 ns1 (([1, 2, 3] : List Nat).eraseIdx (([1, 2, 3] : List Nat).length - 1)) ∧
      l1.size + 1 = sample123.size ∧
      r = l1.begin ∧ r.current = l1.head ∧ r.is_end = false ∧
      r.op_eq l1.begin = true ∧ r.op_eq l1.end_ = false ∧
      (2 ≤ ([1, 2, 3] : List Nat).length → (∃ a, sample123.head = some a) ∧
        l1.head = sample123.head ∧
        r = iterator.mk sample123.head sample123.head false ∧ r.current = sample123.head ∧
        r = sample123.begin ∧
        ∀ w, ([1, 2, 3] : List Nat)[0]? = some w → r.op_deref l1.mem = .ok w) ∧
      (([1, 2, 3] : List Nat).length = 1 → l1.empty = true ∧ l1.head = none ∧
        r.current = none) :=
  ⟨by decide, by decide,
    C22_erase_last_returns_begin (by decide : Ring sample123 [0, 1, 2] [1, 2, 3]) (by decide)⟩

/-- The second case of C22 evaluated: erasing the sole element of `{1}` leaves an empty
container and returns a cursor without a current node whose flag is clear; it is not `end()`. -/
theorem erase_sole_example :
    CyclicList.erase sample1 sample1.begin =
        .ok (CyclicList.mk sample1.mem none 0, iterator.mk none none false) ∧
      (iterator.mk none none false).op_eq (CyclicList.mk sample1.mem none 0).end_ = false := by
  decide

/-- On a ring of one node, `pop_front()` resets `head` and nothing else: the `next` link of the
node removed still refers to that node. -/
theorem pop_front_sole_self_link {l : CyclicList α} {a : Nat} {v : α} (h : Ring l [a] [v]) :
    ∃ l1, l.pop_front = .ok l1 ∧ l1.head = none ∧ l1.size = 0 ∧
      next_of l1.mem (some a) = some a := by
  have hemp : l.empty = false := by rw [h.empty_eq]; rfl
  have hs : l.size_ = 1 := h.1
  obtain ⟨w, _, hn⟩ := h.lookup (k := 0) (a := a) rfl
  refine ⟨CyclicList.mk l.mem none (l.size_ - 1), ?_, rfl, by simp [size, hs], ?_⟩
  · simp [CyclicList.pop_front, hemp, hs]
  · simp [next_of, hn, succIdx]

/-- C24 (at the one-element container `{1}` and at `clear()` on `{1, 2, 3}`): `pop_front()`,
`pop_back()` and `erase(begin())` on `{1}` leave `head` null, but the `next` link of the node
removed still refers to that node, so its `use_count()` is 1 and it is never reclaimed; and
after `clear()` on `{1, 2, 3}` the nodes 0 and 1 are reclaimed while node 2, removed last,
still owns itself. -/
theorem C24_sole_node_owns_itself :
    (∃ l1, sample1.pop_front = .ok l1 ∧ l1.head = none ∧ l1.size = 0 ∧
      next_of l1.mem (some 0) = some 0 ∧ alive l1 = [0] ∧ use_count l1 0 = 1) ∧
    (∃ l1, sample1.pop_back = .ok l1 ∧ l1.head = none ∧ l1.size = 0 ∧
      next_of l1.mem (some 0) = some 0 ∧ alive l1 = [0] ∧ use_count l1 0 = 1) ∧
    (∃ l1 r, CyclicList.erase sample1 sample1.begin = .ok (l1, r) ∧ l1.head = none ∧
      l1.size = 0 ∧ next_of l1.mem (some 0) = some 0 ∧ alive l1 = [0] ∧ use_count l1 0 = 1) ∧
    (∃ l3, clear 4 sample123 = some (.ok l3) ∧ l3.head = none ∧ l3.size = 0 ∧
      next_of l3.mem (some 2) = some 2 ∧ alive l3 = [2] ∧ use_count l3 2 = 1) :=
  ⟨⟨CyclicList.mk sample1.mem none 0, by decide, by decide, by decide, by decide, by decide,
      by decide⟩,
    ⟨CyclicList.mk sample1.mem none 0, by decide, by decide, by decide, by decide, by decide,
      by decide⟩,
    ⟨CyclicList.mk sample1.mem none 0, iterator.mk none none false, by decide, by decide,
      by decide, by decide, by decide, by decide⟩,
    ⟨CyclicList.mk [Node.mk 1 (some 1) (some 2), Node.mk 2 (some 2) (some 2),
        Node.mk 3 (some 2) (some 2)] none 0,
      by decide, by decide, by decide, by decide, by decide, by decide⟩⟩

/-- Where the ring has more than one node the node removed is reclaimed: after `pop_front()` on
`{1, 2, 3}` nothing owns node 0, and the nodes 1 and 2 of the ring own each other. -/
theorem pop_front_reclaims_example :
    ∃ l1, sample123.pop_front = .ok l1 ∧ alive l1 = [1, 2] ∧ use_count l1 0 = 0 ∧
      use_count l1 1 = 2 ∧ use_count l1 2 = 1 :=
  ⟨CyclicList.mk [Node.mk 1 (some 1) (some 2), Node.mk 2 (some 2) (some 2),
      Node.mk 3 (some 1) (some 1)] (some 1) 2,
    by decide, by decide, by decide, by decide, by decide⟩

theorem op_inc_any {l : CyclicList α} {ns : List Nat} {vs : List α} (h : Ring l ns vs)
    {k a : Nat} (hk : ns[k]? = some a) (hd : Ptr) (f : Bool) :
    iterator.op_inc l.mem (iterator.mk (some a) hd f) =
      .ok (iterator.mk ns[succIdx ns.length k]? hd
        (if ns[succIdx ns.length k]? = hd then true else f)) := by
  obtain ⟨v, hv, hn⟩ := h.lookup hk
  simp only [iterator.op_inc, load_of_get hn]

/-- A cursor whose snapshot of `head` is the second node of the ring, at a node other than the
first: `++` moves on and leaves the boundary flag as it is. -/
theorem op_inc_stale {l : CyclicList α} {ns : List Nat} {vs : List α} (h : Ring l ns vs)
    {j : Nat} (hj1 : 1 ≤ j) (hj : j < ns.length) (f : Bool) :
    iterator.op_inc l.mem (iterator.mk ns[j]? ns[1]? f) =
      .ok (iterator.mk ns[succIdx ns.length j]? ns[1]? f) := by
  obtain ⟨a, ha⟩ := exists_get ns j hj
  obtain ⟨s, hs⟩ := exists_get ns (succIdx ns.length j) (succIdx_lt hj)
  obtain ⟨b, hb⟩ := exists_get ns 1 (by omega)
  have hc : ¬ (ns[succIdx ns.length j]? = ns[1]?) := by
    rw [hs, hb, Option.some.injEq, idx_inj h.2.2.2.1 hs hb]
    unfold succIdx; split <;> omega
  rw [ha, op_inc_any h ha, if_neg hc]

/-- The same cursor at the first node: `++` moves to the second node, which is the snapshot, and
sets the boundary flag. -/
theorem op_inc_stale_first {l : CyclicList α} {ns : List Nat} {vs : List α} (h : Ring l ns vs)
    (hn : 2 ≤ ns.length) (f : Bool) :
    iterator.op_inc l.mem (iterator.mk ns[0]? ns[1]? f) =
      .ok (iterator.mk ns[1]? ns[1]? true) := by
  obtain ⟨a, ha⟩ := exists_get ns 0 (by omega)
  have hs : succIdx ns.length 0 = 1 := by unfold succIdx; split <;> omega
  rw [ha, op_inc_any h ha, hs, if_pos rfl]

theorem advance_stale {l : CyclicList α} {ns : List Nat} {vs : List α} (h : Ring l ns vs) :
    ∀ d j, 1 ≤ j → j + d = ns.length → 0 < d →
      iterator.advance l.mem d (iterator.mk ns[j]? ns[1]? false) =
        .ok (iterator.mk ns[0]? ns[1]? false) := by
  intro d
  induction d with
  | zero => intro j _ _ hd; omega
  | succ d ih =>
    intro j hj1 hj _
    simp only [iterator.advance, op_inc_stale h hj1 (by omega) false]
    by_cases hd : d = 0
    · subst hd
      have hs : succIdx ns.length j = 0 := by unfold succIdx; split <;> omega
      rw [hs]; rfl
    · have hs : succIdx ns.length j = j + 1 := by unfold succIdx; split <;> omega
      rw [hs]
      exact ih (j + 1) (by omega) (by omega) (by omega)

theorem drop_eq_cons_of_get {β : Type} {xs : List β} {k : Nat} {w : β} (hw : xs[k]? = some w) :
    xs.drop k = w :: xs.drop (k + 1) := by
  obtain ⟨hlt, e⟩ := List.getElem?_eq_some.mp hw
  rw [← e]; exact List.drop_eq_getElem_cons hlt

/-- The loop to `end()` from a cursor with the stale snapshot and the flag set: it runs on to the
entry node and stops there. -/
theorem traverse_stale_flagged {l : CyclicList α} {ns : List Nat} {vs : List α}
    (h : Ring l ns vs) :
    ∀ d j fuel, 1 ≤ j → j + d = ns.length → 0 < d → d < fuel →
      traverse l fuel (iterator.mk ns[j]? ns[1]? true) = some (.ok (vs.drop j)) := by
  intro d
  induction d with
  | zero => intro j fuel _ _ hd; omega
  | succ d ih =>
    intro j fuel hj1 hj _ hf
    obtain ⟨a, ha⟩ := exists_get ns j (by omega)
    obtain ⟨p0, h0⟩ := exists_get ns 0 (by omega)
    obtain ⟨w, hw⟩ := exists_get vs j (by rw [h.length_eq]; omega)
    obtain ⟨fuel, rfl⟩ : ∃ f, fuel = f + 1 := ⟨fuel - 1, by omega⟩
    have hi := op_inc_stale h hj1 (by omega) true
    have hne : a ≠ p0 := by
      rw [Ne, idx_inj h.2.2.2.1 ha h0]; omega
    have hdr := op_deref_at h ha hw ns[1]? true
    rw [ha] at hi
    rw [ha, drop_eq_cons_of_get hw]
    simp only [CyclicList.traverse, iterator.op_ne, iterator.op_eq, end_, h.head_eq, h0,
      Option.some.injEq, hne, decide_False, Bool.false_and, Bool.not_false, if_true, hdr, hi]
    by_cases hd : d = 0
    · subst hd
      have hs : succIdx ns.length j = 0 := by unfold succIdx; split <;> omega
      obtain ⟨fuel, rfl⟩ : ∃ f, fuel = f + 1 := ⟨fuel - 1, by omega⟩
      have hnil : vs.drop (j + 1) = [] := List.drop_of_length_le (by rw [h.length_eq]; omega)
      rw [hs, h0, hnil]
      simp [CyclicList.traverse, iterator.op_ne, iterator.op_eq, end_, h.head_eq, h0]
      rfl
    · have hs : succIdx ns.length j = j + 1 := by unfold succIdx; split <;> omega
      rw [hs, ih (j + 1) fuel (by omega) (by omega) (by omega) (by omega)]
      rfl

/-- The loop to `end()` from a cursor with the stale snapshot at the entry node, flag clear: it
visits the whole ring. -/
theorem traverse_stale_first {l : CyclicList α} {ns : List Nat} {vs : List α}
    (h : Ring l ns vs) (hn : 2 ≤ ns.length) (fuel : Nat) (hf : ns.length < fuel) :
    traverse l fuel (iterator.mk ns[0]? ns[1]? false) = some (.ok vs) := by
  obtain ⟨p0, h0⟩ := exists_get ns 0 (by omega)
  obtain ⟨w, hw⟩ := exists_get vs 0 (by rw [h.length_eq]; omega)
  obtain ⟨fuel, rfl⟩ : ∃ f, fuel = f + 1 := ⟨fuel - 1, by omega⟩
  have hi := op_inc_stale_first h hn false
  have hdr := op_deref_at h h0 hw ns[1]? false
  have hrest := traverse_stale_flagged h (ns.length - 1) 1 fuel (by omega) (by omega) (by omega)
    (by omega)
  have hdrop : vs = w :: vs.drop 1 := by
    have := drop_eq_cons_of_get hw
    simpa using this
  rw [h0] at hi
  rw [h0]
  simp only [CyclicList.traverse, iterator.op_ne, iterator.op_eq, end_, Bool.false_eq_true,
    decide_False, Bool.and_false, Bool.not_false, if_true, hdr, hi, hrest]
  conv_rhs => rw [hdrop]
  rfl

/-- The loop to `end()` from a cursor with the stale snapshot and the flag clear, at a node other
than the entry node: it runs to the end of the ring, does not stop at the entry node, and goes
round the whole ring once more. -/
theorem traverse_stale {l : CyclicList α} {ns : List Nat} {vs : List α}
    (h : Ring l ns vs) :
    ∀ d j fuel, 1 ≤ j → j + d = ns.length → 0 < d → d + ns.length < fuel →
      traverse l fuel (iterator.mk ns[j]? ns[1]? false) = some (.ok (vs.drop j ++ vs)) := by
  intro d
  induction d with
  | zero => intro j fuel _ _ hd; omega
  | succ d ih =>
    intro j fuel hj1 hj _ hf
    obtain ⟨a, ha⟩ := exists_get ns j (by omega)
    obtain ⟨w, hw⟩ := exists_get vs j (by rw [h.length_eq]; omega)
    obtain ⟨fuel, rfl⟩ : ∃ f, fuel = f + 1 := ⟨fuel - 1, by omega⟩
    have hi := op_inc_stale h hj1 (by omega) false
    have hdr := op_deref_at h ha hw ns[1]? false
    rw [ha] at hi
    rw [ha, drop_eq_cons_of_get hw]
    simp only [CyclicList.traverse, iterator.op_ne, iterator.op_eq, end_, Bool.false_eq_true,
      decide_False, Bool.and_false, Bool.not_false, if_true, hdr, hi]
    by_cases hd : d = 0
    · subst hd
      have hs : succIdx ns.length j = 0 := by unfold succIdx; split <;> omega
      have hnil : vs.drop (j + 1) = [] := List.drop_of_length_le (by rw [h.length_eq]; omega)
      rw [hs, hnil, traverse_stale_first h (by omega) fuel (by omega)]
      rfl
    · have hs : succIdx ns.length j = j + 1 := by unfold succIdx; split <;> omega
      rw [hs, ih (j + 1) fuel (by omega) (by omega) (by omega) (by omega)]
      rfl

/-- C23 as stated fails: on `{1, 2, 3}` with the cursor at the second element, after
`push_front(0)` two `++` steps bring the cursor to the new entry node with the boundary flag
clear, which is not `end()`; the loop from the cursor to `end()` visits 2, 3, then 0 and the
three old elements once more. -/
theorem C23_stale_cursor_misses_end :
    ∃ c l1 it, iterator.advance sample123.mem 1 sample123.begin = .ok c ∧
      sample123.push_front 0 = .ok l1 ∧
      iterator.advance l1.mem (3 - 1) c = .ok it ∧ it.op_eq l1.end_ = false ∧
      traverse l1 7 c = some (.ok [2, 3, 0, 1, 2, 3]) :=
  ⟨iterator.mk (some 1) (some 0) false,
    CyclicList.mk [Node.mk 1 (some 1) (some 3), Node.mk 2 (some 2) (some 0),
      Node.mk 3 (some 3) (some 1), Node.mk 0 (some 0) (some 2)] (some 3) 4,
    iterator.mk (some 3) (some 0) false,
    by decide, by decide, by decide, by decide, by decide⟩

/-- C23 amended: on a well-formed ring with values `vs` (`n` of them), let `c` be `begin()`
advanced `k < n` times and let `push_front(v)` be called. Advancing `c` exactly `n - k` times
then gives a cursor at the new entry node with the boundary flag clear: it dereferences to
`v` and is not equal to the new `end()`, because `c` still carries the old entry node as its
`head`. The loop from `c` to `end()` visits the remaining `n - k` elements, then `v`, then all
`n` old elements again, and stops there. -/
theorem C23_stale_cursor_after_push_front {l : CyclicList α} {ns : List Nat} {vs : List α}
    (h : Ring l ns vs) (k : Nat) (hk : k < vs.length) (v : α) :
    ∃ c l1 it, iterator.advance l.mem k l.begin = .ok c ∧ l.push_front v = .ok l1 ∧
      iterator.advance l1.mem (vs.length - k) c = .ok it ∧
      it.current = l1.head ∧ it.is_end = false ∧ it.op_eq l1.end_ = false ∧
      it.op_deref l1.mem = .ok v ∧
      ∀ fuel, (vs.length - k) + vs.length + 1 < fuel →
        traverse l1 fuel c = some (.ok (vs.drop k ++ v :: vs)) := by
  have hin : k < ns.length := by rw [← h.length_eq]; exact hk
  obtain ⟨l1, e, hr, _, hh⟩ := push_front_ring h v
  have hlen : (l.mem.length :: ns).length = ns.length + 1 := rfl
  have hc : iterator.mk ns[k]? l.head false =
      iterator.mk (l.mem.length :: ns)[k + 1]? (l.mem.length :: ns)[1]? false := by
    rw [h.head_eq]; simp
  have h0 : (l.mem.length :: ns)[0]? = some l.mem.length := by simp
  have hadv := advance_stale hr (ns.length - k) (k + 1) (by omega) (by rw [hlen]; omega)
    (by omega)
  rw [← hc, h0, ← h.length_eq] at hadv
  refine ⟨_, l1, _, advance_begin h hin, e, hadv, hh.symm, rfl, ?_, ?_, ?_⟩
  · simp [iterator.op_eq, end_]
  · exact op_deref_at hr h0 (by simp) _ _
  · intro fuel hf
    have ht := traverse_stale hr (ns.length - k) (k + 1) fuel (by omega) (by rw [hlen]; omega)
      (by omega) (by rw [hlen, ← h.length_eq]; omega)
    rw [← hc] at ht
    rw [ht, List.drop_succ_cons]

/-- Witness of C23 amended: `{1, 2, 3}`, the cursor at the second element, `push_front(0)`. -/
theorem C23_stale_cursor_after_push_front_witness :
    Ring sample123 [0, 1, 2] [1, 2, 3] ∧ 1 < ([1, 2, 3] : List Nat).length ∧
    ∃ c l1 it, iterator.advance sample123.mem 1 sample123.begin = .ok c ∧
      sample123.push_front 0 = .ok l1 ∧
      iterator.advance l1.mem (([1, 2, 3] : List Nat).length - 1) c = .ok it ∧
      it.current = l1.head ∧ it.is_end = false ∧ it.op_eq l1.end_ = false ∧
      it.op_deref l1.mem = .ok 0 ∧
      ∀ fuel, (([1, 2, 3] : List Nat).length - 1) + ([1, 2, 3] : List Nat).length + 1 < fuel →
        traverse l1 fuel c = some (.ok (([1, 2, 3] : List Nat).drop 1 ++ 0 :: [1, 2, 3])) :=
  ⟨by decide, by decide,
    C23_stale_cursor_after_push_front (by decide : Ring sample123 [0, 1, 2] [1, 2, 3]) 1
      (by decide) 0⟩

end Cyclic
